import Mathlib

/-!
Verification development for the pulp client repo_file module.

The source (src/src/pulp/client/repo_file.py) defines:
  - Repo: a dict-backed record for one repository section, with defaulted
    properties and an items() view;
  - RepoFile: a .repo INI file abstraction over an iniparse ConfigParser,
    with add_repo / update_repo / get_repo / all_repos / save / load;
  - MirrorListFile: a plain whitespace-delimited list of URLs;
  - Reader: a line source that collapses runs of blank lines.

Python strings are embedded as Lean String (file contents and lines are
handled at the List Char level, which is the data of a String).  Python
dicts keyed by strings are embedded as insertion-ordered association lists.
The iniparse ConfigParser itself is not part of the repository; its
document store is modelled from the spec (section 6 of the spec lists the
operations: create/remove section, has-section, set/remove key, list
sections, list key/value pairs, write, and parse during load).
-/

/-- Error kinds, following the spec's error taxonomy (section 7).
ValueError at construction maps to invalidArgument; the underlying store's
duplicate-section error maps to conflict; its missing-section error maps to
notFound; malformed INI content maps to parseError. -/
inductive Err where
  | invalidArgument
  | conflict
  | notFound
  | parseError
deriving DecidableEq

instance {ε α : Type} [DecidableEq ε] [DecidableEq α] : DecidableEq (Except ε α) := by
  intro a b
  cases a <;> cases b
  case error.error e f =>
    exact if h : e = f then .isTrue (by rw [h]) else .isFalse (by intro c; cases c; exact h rfl)
  case ok.ok x y =>
    exact if h : x = y then .isTrue (by rw [h]) else .isFalse (by intro c; cases c; exact h rfl)
  case error.ok e x => exact .isFalse (by intro c; cases c)
  case ok.error x e => exact .isFalse (by intro c; cases c)

/-- Lookup in an insertion-ordered association list (Python dict lookup). -/
def alookup {α : Type} : List (String × α) → String → Option α
  | [], _ => none
  | kv :: rest, k => if kv.1 = k then some kv.2 else alookup rest k

/-- Assignment in an insertion-ordered association list: an existing key is
updated in place, a new key is appended (Python dict assignment). -/
def aset {α : Type} : List (String × α) → String → α → List (String × α)
  | [], k, v => [(k, v)]
  | kv :: rest, k, v => if kv.1 = k then (k, v) :: rest else kv :: aset rest k v

/-- Deletion of a key from an association list. -/
def aremove {α : Type} (l : List (String × α)) (k : String) : List (String × α) :=
  l.filter (fun kv => kv.1 ≠ k)

/-- Repo.PROPERTIES from the source: the defaulted properties, in
declaration order, as pairs of name and default value (None becomes none). -/
def PROPERTIES : List (String × Option String) :=
  [("name", none), ("enabled", some "1"), ("gpgkey", none),
   ("sslverify", some "0"), ("gpgcheck", some "0")]

/-- Repo from the source: the id attribute plus the underlying dict.
Dict values are Option String, where none embeds Python None. -/
structure Repo where
  id : String
  data : List (String × Option String)
deriving DecidableEq

/-- Repo.__init__: populates the fresh dict with every PROPERTIES default. -/
def Repo.init (id : String) : Repo :=
  { id := id, data := PROPERTIES.foldl (fun d kd => aset d kd.1 kd.2) [] }

/-- dict.get(k): none when the key is absent or when the stored value is None. -/
def Repo.get (r : Repo) (k : String) : Option String :=
  match alookup r.data k with
  | some v => v
  | none => none

/-- Python membership test: k in self. -/
def Repo.hasKey (r : Repo) (k : String) : Bool :=
  (alookup r.data k).isSome

/-- dict assignment: self[k] = v. -/
def Repo.set (r : Repo) (k : String) (v : Option String) : Repo :=
  { r with data := aset r.data k v }

/-- Repo.items from the source: the PROPERTIES keys in declaration order
paired with self.get(k), then baseurl and mirrorlist when present. -/
def Repo.items (r : Repo) : List (String × Option String) :=
  (PROPERTIES.map (fun kd => (kd.1, r.get kd.1)))
    ++ (if r.hasKey "baseurl" then [("baseurl", r.get "baseurl")] else [])
    ++ (if r.hasKey "mirrorlist" then [("mirrorlist", r.get "mirrorlist")] else [])

/-- Python truthiness of a repo value: None and the empty string are falsy. -/
def truthy : Option String → Bool
  | none => false
  | some s => s ≠ ""

/-- Modelled from the spec: the document store of the external iniparse
ConfigParser (not part of this repository): an ordered list of sections,
each a flat ordered key/value mapping of strings. -/
structure ConfigParser where
  sections : List (String × List (String × String))
deriving DecidableEq

/-- has_section query of the store. -/
def ConfigParser.hasSection (p : ConfigParser) (n : String) : Bool :=
  (alookup p.sections n).isSome

/-- Modelled from the spec: add_section fails on a duplicate section name
(the spec maps the duplicate-section behavior to Conflict). -/
def ConfigParser.addSection (p : ConfigParser) (n : String) : Except Err ConfigParser :=
  if p.hasSection n then .error .conflict
  else .ok { sections := p.sections ++ [(n, [])] }

/-- Apply a function to the pair list of the named section. -/
def updSection (secs : List (String × List (String × String))) (n : String)
    (f : List (String × String) → List (String × String)) :
    List (String × List (String × String)) :=
  secs.map (fun s => if s.1 = n then (s.1, f s.2) else s)

/-- Modelled from the spec: set key-in-section; fails when the section does
not exist (the spec maps the missing-section behavior to NotFound). -/
def ConfigParser.set (p : ConfigParser) (n k v : String) : Except Err ConfigParser :=
  if p.hasSection n then .ok ⟨updSection p.sections n (fun ps => aset ps k v)⟩
  else .error .notFound

/-- Modelled from the spec: remove key-in-section; fails when the section
does not exist. -/
def ConfigParser.removeOption (p : ConfigParser) (n k : String) : Except Err ConfigParser :=
  if p.hasSection n then .ok ⟨updSection p.sections n (fun ps => aremove ps k)⟩
  else .error .notFound

/-- remove_section: removes the named section, reporting whether it existed. -/
def ConfigParser.removeSection (p : ConfigParser) (n : String) : Bool × ConfigParser :=
  (p.hasSection n, ⟨p.sections.filter (fun s => s.1 ≠ n)⟩)

/-- list key/value pairs of a section (callers guard with has_section). -/
def ConfigParser.items (p : ConfigParser) (n : String) : List (String × String) :=
  match alookup p.sections n with
  | some ps => ps
  | none => []

/-- sections(): the section names in document order. -/
def ConfigParser.sectionNames (p : ConfigParser) : List String :=
  p.sections.map (fun s => s.1)

/-- One step of RepoFile._repo_to_parser: if the value is truthy it is set,
otherwise the key is removed from the section. -/
def entryOp (p : ConfigParser) (id : String) (kv : String × Option String) :
    Except Err ConfigParser :=
  match kv.2 with
  | some s => if s = "" then p.removeOption id kv.1 else p.set id kv.1 s
  | none => p.removeOption id kv.1

/-- The loop of RepoFile._repo_to_parser over repo.items(). -/
def writeEntries (p : ConfigParser) (id : String) :
    List (String × Option String) → Except Err ConfigParser
  | [] => .ok p
  | kv :: rest =>
    match entryOp p id kv with
    | .ok p2 => writeEntries p2 id rest
    | .error e => .error e

/-- RepoFile._repo_to_parser. -/
def repoToParser (p : ConfigParser) (r : Repo) : Except Err ConfigParser :=
  writeEntries p r.id r.items

/-- RepoFile.add_repo: add_section then _repo_to_parser. -/
def addRepo (p : ConfigParser) (r : Repo) : Except Err ConfigParser :=
  match p.addSection r.id with
  | .ok p2 => repoToParser p2 r
  | .error e => .error e

/-- RepoFile.update_repo: _repo_to_parser on the existing section. -/
def updateRepo (p : ConfigParser) (r : Repo) : Except Err ConfigParser :=
  repoToParser p r

/-- RepoFile._parser_to_repo: a fresh Repo (which populates the defaults)
overwritten by every key/value pair of the section. -/
def parserToRepo (p : ConfigParser) (n : String) : Repo :=
  { id := n,
    data := (p.items n).foldl (fun d kv => aset d kv.1 (some kv.2)) (Repo.init n).data }

/-- RepoFile.get_repo. -/
def getRepo (p : ConfigParser) (n : String) : Option Repo :=
  if p.hasSection n then some (parserToRepo p n) else none

/-- RepoFile.all_repos. -/
def allRepos (p : ConfigParser) : List Repo :=
  p.sectionNames.map (fun n => parserToRepo p n)

/-- RepoFile.__init__: raises ValueError exactly when filename is None.
The filename argument is embedded as Option String; none is Python None. -/
structure RepoFileState where
  filename : String
  parser : ConfigParser
deriving DecidableEq

def RepoFile.init (filename : Option String) : Except Err RepoFileState :=
  match filename with
  | none => .error .invalidArgument
  | some f => .ok { filename := f, parser := ⟨[]⟩ }

/-- MirrorListFile.__init__: raises ValueError exactly when filename is None. -/
structure MirrorListFileState where
  filename : String
  entries : List String
deriving DecidableEq

def MirrorListFile.init (filename : Option String) : Except Err MirrorListFileState :=
  match filename with
  | none => .error .invalidArgument
  | some f => .ok { filename := f, entries := [] }

/-- RepoFile.FILE_HEADER from the source. -/
def FILE_HEADER : String := "#\n# Pulp Repositories\n# Managed by Pulp client\n#\n\n"

/-- Join a list of lines into file content, one trailing newline per line
(this is how both RepoFile.save and MirrorListFile.save emit text). -/
def joinLines : List (List Char) → List Char
  | [] => []
  | l :: ls => l ++ '\n' :: joinLines ls

/-- Modelled from the spec: one key = value line, in the file format of
spec section 6. -/
def pairLineChars (kv : String × String) : List Char :=
  kv.1.data ++ ' ' :: '=' :: ' ' :: kv.2.data

/-- Modelled from the spec: a section header line. -/
def sectionLineChars (n : String) : List Char :=
  '[' :: n.data ++ [']']

/-- Modelled from the spec: the lines of one serialized section: the header
line, one line per key/value pair, then a blank separator line. -/
def sectionLines (s : String × List (String × String)) : List (List Char) :=
  sectionLineChars s.1 :: s.2.map pairLineChars ++ [[]]

/-- Modelled from the spec: the write operation of the document store,
serializing every section in order. -/
def writeLines (p : ConfigParser) : List (List Char) :=
  (p.sections.map sectionLines).flatten

/-- RepoFile.save: the header block is prepended exactly when the file did
not exist before the save; then the store serializes its sections. -/
def RepoFile.save (fileExists : Bool) (p : ConfigParser) : List Char :=
  (if fileExists then [] else FILE_HEADER.data) ++ joinLines (writeLines p)

/-- Python str.split of file content on a newline, as performed by
Reader.__init__ (keeps empty pieces, including a trailing one). -/
def splitNl : List Char → List (List Char)
  | [] => [[]]
  | c :: cs =>
    if c = '\n' then [] :: splitNl cs
    else
      match splitNl cs with
      | [] => [[c]]
      | t :: ts => (c :: t) :: ts

/-- Reader from the source: the split lines of the file and a cursor. -/
structure Reader where
  lines : List (List Char)
  idx : Nat
deriving DecidableEq

/-- Reader.__init__: reads the file and splits its content on newlines. -/
def Reader.ofContent (content : List Char) : Reader :=
  ⟨splitNl content, 0⟩

/-- The scanning loop inside Reader.readline: from index i, skip and count
blank lines; stop at end of input or at the first non-blank line.  The fuel
argument makes the recursion structural; scan supplies enough fuel. -/
def scanFuel : Nat → List (List Char) → Nat → Nat → Option (Nat × Nat × List Char)
  | 0, _, _, _ => none
  | fuel + 1, lines, i, nl =>
    match lines[i]? with
    | none => none
    | some ln => if ln = [] then scanFuel fuel lines (i + 1) (nl + 1) else some (i + 1, nl, ln)

def scan (lines : List (List Char)) (i nl : Nat) : Option (Nat × Nat × List Char) :=
  scanFuel (lines.length + 1 - i) lines i nl

/-- Reader.readline from the source: end of stream yields none and leaves
the reader unchanged; a skipped run of blanks yields one blank line (the
newline string) and backs the cursor onto the pending non-blank line;
otherwise the non-blank line is returned and the cursor passes it. -/
def Reader.readline (r : Reader) : Option (List Char) × Reader :=
  match scan r.lines r.idx 0 with
  | none => (none, r)
  | some (i, nl, ln) =>
    if nl = 0 then (some ln, { r with idx := i })
    else (some ['\n'], { r with idx := i - 1 })

/-- Drain the reader: the sequence of lines readline hands to the INI
parser during readfp.  Fueled to keep the recursion structural. -/
def readerAllFuel : Nat → Reader → List (List Char)
  | 0, _ => []
  | fuel + 1, r =>
    match r.readline with
    | (none, _) => []
    | (some ln, r2) => ln :: readerAllFuel fuel r2

def Reader.readAll (r : Reader) : List (List Char) :=
  readerAllFuel (r.lines.length + 1 - r.idx) r

/-- Parser state during readfp: finished sections plus the section the
parser is currently filling. -/
structure PState where
  done : List (String × List (String × String))
  cur : Option (String × List (String × String))
deriving DecidableEq

def flushCur (st : PState) : List (String × List (String × String)) :=
  match st.cur with
  | some s => st.done ++ [s]
  | none => st.done

/-- Split a line at the first occurrence of the three-character key/value
separator (space, equals, space). -/
def splitSep : List Char → Option (List Char × List Char)
  | [] => none
  | c :: cs =>
    if c = ' ' ∧ cs.take 2 = ['=', ' '] then some ([], cs.drop 2)
    else
      match splitSep cs with
      | some kv => some (c :: kv.1, kv.2)
      | none => none

/-- Modelled from the spec: one line of INI parsing during load.  Blank
lines and comment lines are skipped; a bracketed line opens a new section;
a key = value line extends the current section; anything else is malformed
(the spec allows only flat key=value sections). -/
def parseLine (st : PState) (cs : List Char) : Except Err PState :=
  if cs = [] ∨ cs = ['\n'] then .ok st
  else if cs.head? = some '#' then .ok st
  else if cs.head? = some '[' then
    if cs.tail.getLast? = some ']' then
      .ok { done := flushCur st, cur := some (String.mk cs.tail.dropLast, []) }
    else .error .parseError
  else
    match splitSep cs, st.cur with
    | some kv, some sec =>
      .ok { st with cur := some (sec.1, aset sec.2 (String.mk kv.1) (String.mk kv.2)) }
    | _, _ => .error .parseError

def parseLines : PState → List (List Char) → Except Err PState
  | st, [] => .ok st
  | st, l :: ls =>
    match parseLine st l with
    | .ok st2 => parseLines st2 ls
    | .error e => .error e

/-- RepoFile.load on existing file content: the content is read through the
Reader and fed to the INI parser, producing the document store. -/
def RepoFile.load (content : List Char) : Except Err ConfigParser :=
  match parseLines ⟨[], none⟩ (Reader.ofContent content).readAll with
  | .ok st => .ok ⟨flushCur st⟩
  | .error e => .error e

/-- Python str.isspace characters relevant to str.split(). -/
def isPySpace (c : Char) : Bool :=
  c = ' ' ∨ c = '\t' ∨ c = '\n' ∨ c = '\r' ∨ c = '\x0b' ∨ c = '\x0c'

/-- Python str.split() with no separator: split on runs of whitespace,
discarding empty tokens.  The accumulator holds the token being built. -/
def pySplitAux : List Char → List Char → List (List Char)
  | acc, [] => if acc = [] then [] else [acc]
  | acc, c :: cs =>
    if isPySpace c then
      if acc = [] then pySplitAux [] cs else acc :: pySplitAux [] cs
    else pySplitAux (acc ++ [c]) cs

def pySplit (cs : List Char) : List (List Char) :=
  pySplitAux [] cs

/-- MirrorListFile.save: each entry followed by a newline, in order. -/
def MirrorListFile.saveContent (entries : List String) : List Char :=
  joinLines (entries.map String.data)

/-- MirrorListFile.load: the whole file content split on whitespace runs,
replacing the in-memory sequence. -/
def MirrorListFile.loadEntries (content : List Char) : List String :=
  (pySplit content).map String.mk


/-- The effect of one _repo_to_parser entry on the pair list of the target
section: a truthy value is assigned, a falsy one removes the key. -/
def entApply (d : List (String × String)) (kv : String × Option String) :
    List (String × String) :=
  match kv.2 with
  | some s => if s = "" then aremove d kv.1 else aset d kv.1 s
  | none => aremove d kv.1

/-- The value the persisted section ends up holding for an entry value:
none for falsy values, the string itself otherwise. -/
def entVal : Option String → Option String
  | some s => if s = "" then none else some s
  | none => none

/-- The pair list produced for a fresh section by add_repo. -/
def sectionPairs (r : Repo) : List (String × String) :=
  r.items.foldl entApply []

/-- Populate a RepoFile with a list of records through add_repo. -/
def addAllFrom (p : ConfigParser) : List Repo → Except Err ConfigParser
  | [] => .ok p
  | r :: rest =>
    match addRepo p r with
    | .ok p2 => addAllFrom p2 rest
    | .error e => .error e

def addAll (repos : List Repo) : Except Err ConfigParser :=
  addAllFrom ⟨[]⟩ repos

/-- Specification of the Reader output stream: runs of blank lines followed
by a non-blank line collapse to one emitted blank line (the newline string);
trailing blank lines are dropped; non-blank lines pass through.  Fueled to
keep the recursion structural. -/
def collapseFuel : Nat → List (List Char) → List (List Char)
  | 0, _ => []
  | _, [] => []
  | fuel + 1, l :: ls =>
    if l = [] then
      match ls.dropWhile (fun x => x == []) with
      | [] => []
      | x :: xs => ['\n'] :: x :: collapseFuel fuel xs
    else l :: collapseFuel fuel ls

def collapse (ls : List (List Char)) : List (List Char) :=
  collapseFuel ls.length ls

/-- Lines the INI parser acts on: a line is ignored when blank (empty or
the lone newline emitted by the Reader) or a comment. -/
def keep (l : List Char) : Bool :=
  !(l == [] || l == ['\n'] || l.head? == some '#')

/-- The header block of RepoFile.FILE_HEADER, as split lines. -/
def headerLines : List (List Char) :=
  [['#'], ("# Pulp Repositories" : String).data,
   ("# Managed by Pulp client" : String).data, ['#'], []]

/-- A key is well formed for the flat INI format of the spec: no space, no
newline, and it does not begin like a comment or a section header. -/
def wfKey (k : String) : Bool :=
  !(k.data.contains ' ') && !(k.data.contains '\n')
    && k.data.head? != some '#' && k.data.head? != some '['

def wfValue (v : String) : Bool :=
  !(v.data.contains '\n')

def wfName (n : String) : Bool :=
  !(n.data.contains '\n')

/-- A section round-trips through save and load when its name and keys and
values are single-line and its keys are unambiguous and distinct. -/
def wfSection (s : String × List (String × String)) : Prop :=
  wfName s.1 = true ∧ (∀ kv ∈ s.2, wfKey kv.1 = true ∧ wfValue kv.2 = true)
    ∧ (s.2.map Prod.fst).Nodup

def wfParser (p : ConfigParser) : Prop :=
  (∀ s ∈ p.sections, wfSection s) ∧ (p.sections.map Prod.fst).Nodup

def wfOptValue : Option String → Bool
  | some s => wfValue s
  | none => true

/-- A record is well formed when its id and every set value are single-line. -/
def wfRepo (r : Repo) : Prop :=
  wfName r.id = true ∧ ∀ kv ∈ r.data, wfOptValue kv.2 = true

/-- The keys a Repo writes through add_repo and update_repo: the five
defaulted properties plus baseurl and mirrorlist. -/
def recognizedKeys : List String :=
  ["name", "enabled", "gpgkey", "sslverify", "gpgcheck", "baseurl", "mirrorlist"]

/-- Concrete document for the C1 counterexample: one section holding only a
baseurl key. -/
def c1doc : ConfigParser :=
  ⟨[("r1", [("baseurl", "http://example/repo")])]⟩

/-- Concrete record for the C3 counterexample: a fresh record whose enabled
property is overwritten with the empty string. -/
def c3repo : Repo :=
  (Repo.init "r1").set "enabled" (some "")

def c3doc : ConfigParser :=
  ⟨[("r1", [("enabled", "1")])]⟩

/-- Concrete record for the C5 counterexample: a fresh record with an extra
unrecognized key set to a non-empty value. -/
def c5repo : Repo :=
  (Repo.init "r1").set "custom_key" (some "custom_value")

/-! ### Association list lemmas -/

lemma alookup_eq_none_of_not_mem {α : Type} :
    ∀ (l : List (String × α)) (k : String), k ∉ l.map Prod.fst → alookup l k = none := by
  intro l k h
  induction l with
  | nil => rfl
  | cons kv rest ih =>
    simp only [List.map_cons, List.mem_cons, not_or] at h
    have hne : kv.1 ≠ k := fun e => h.1 e.symm
    simp only [alookup]
    rw [if_neg hne]
    exact ih h.2

lemma mem_of_alookup_eq_some {α : Type} :
    ∀ (l : List (String × α)) (k : String) (v : α), alookup l k = some v → (k, v) ∈ l := by
  intro l k v h
  induction l with
  | nil => cases h
  | cons kv rest ih =>
    simp only [alookup] at h
    by_cases hk : kv.1 = k
    · rw [if_pos hk] at h
      injection h with h2
      subst hk
      subst h2
      exact List.mem_cons_self _ _
    · rw [if_neg hk] at h
      exact List.mem_cons_of_mem _ (ih h)

lemma mem_keys_of_alookup_eq_some {α : Type} (l : List (String × α)) (k : String) (v : α)
    (h : alookup l k = some v) : k ∈ l.map Prod.fst :=
  List.mem_map_of_mem Prod.fst (mem_of_alookup_eq_some l k v h)

lemma alookup_of_mem_nodup {α : Type} :
    ∀ (l : List (String × α)) (k : String) (v : α),
      (l.map Prod.fst).Nodup → (k, v) ∈ l → alookup l k = some v := by
  intro l k v hnd hm
  induction l with
  | nil => cases hm
  | cons kv rest ih =>
    simp only [List.map_cons, List.nodup_cons] at hnd
    rcases List.mem_cons.1 hm with h | h
    · cases h
      simp [alookup]
    · have hk : kv.1 ≠ k := by
        intro e
        exact hnd.1 (e ▸ List.mem_map_of_mem Prod.fst h)
      simp only [alookup]
      rw [if_neg hk]
      exact ih hnd.2 h

lemma alookup_isSome_iff {α : Type} :
    ∀ (l : List (String × α)) (k : String), (alookup l k).isSome = true ↔ k ∈ l.map Prod.fst := by
  intro l k
  induction l with
  | nil => simp [alookup]
  | cons kv rest ih =>
    simp only [alookup, List.map_cons, List.mem_cons]
    by_cases hk : kv.1 = k
    · simp [hk]
    · rw [if_neg hk]
      rw [ih]
      constructor
      · exact fun h => Or.inr h
      · rintro (h | h)
        · exact absurd h.symm hk
        · exact h

lemma alookup_append {α : Type} :
    ∀ (a b : List (String × α)) (k : String),
      alookup (a ++ b) k = match alookup a k with
        | some v => some v
        | none => alookup b k := by
  intro a b k
  induction a with
  | nil => simp [alookup]
  | cons kv rest ih =>
    by_cases hk : kv.1 = k
    · simp [alookup, hk]
    · simp only [List.cons_append, alookup]
      rw [if_neg hk, if_neg hk]
      exact ih

lemma alookup_aset_self {α : Type} :
    ∀ (l : List (String × α)) (k : String) (v : α), alookup (aset l k v) k = some v := by
  intro l k v
  induction l with
  | nil => simp [aset, alookup]
  | cons kv rest ih =>
    simp only [aset]
    by_cases hk : kv.1 = k
    · rw [if_pos hk]
      simp [alookup]
    · rw [if_neg hk]
      simp only [alookup]
      rw [if_neg hk]
      exact ih

lemma alookup_aset_ne {α : Type} :
    ∀ (l : List (String × α)) (k m : String) (v : α), k ≠ m →
      alookup (aset l k v) m = alookup l m := by
  intro l k m v hne
  induction l with
  | nil =>
    simp only [aset, alookup]
    rw [if_neg hne]
  | cons kv rest ih =>
    simp only [aset]
    by_cases hk : kv.1 = k
    · rw [if_pos hk]
      have h2 : kv.1 ≠ m := fun e => hne (hk.symm.trans e)
      simp only [alookup]
      rw [if_neg hne, if_neg h2]
    · rw [if_neg hk]
      simp only [alookup]
      by_cases hm : kv.1 = m
      · rw [if_pos hm, if_pos hm]
      · rw [if_neg hm, if_neg hm]
        exact ih

lemma aremove_cons_self {α : Type} (kv : String × α) (rest : List (String × α)) (k : String)
    (h : kv.1 = k) : aremove (kv :: rest) k = aremove rest k := by
  simp [aremove, List.filter_cons, h]

lemma aremove_cons_ne {α : Type} (kv : String × α) (rest : List (String × α)) (k : String)
    (h : kv.1 ≠ k) : aremove (kv :: rest) k = kv :: aremove rest k := by
  simp [aremove, List.filter_cons, h]

lemma alookup_aremove_self {α : Type} (l : List (String × α)) (k : String) :
    alookup (aremove l k) k = none := by
  apply alookup_eq_none_of_not_mem
  intro hmem
  rcases List.mem_map.1 hmem with ⟨kv, hkv, he⟩
  rcases List.mem_filter.1 hkv with ⟨_, hne⟩
  simp only [decide_eq_true_eq] at hne
  exact hne he

lemma alookup_aremove_ne {α : Type} :
    ∀ (l : List (String × α)) (k m : String), k ≠ m →
      alookup (aremove l k) m = alookup l m := by
  intro l k m hne
  induction l with
  | nil => rfl
  | cons kv rest ih =>
    by_cases hk : kv.1 = k
    · rw [aremove_cons_self kv rest k hk, ih]
      have h2 : kv.1 ≠ m := fun e => hne (hk.symm.trans e)
      simp only [alookup]
      rw [if_neg h2]
    · rw [aremove_cons_ne kv rest k hk]
      simp only [alookup]
      by_cases hm : kv.1 = m
      · rw [if_pos hm, if_pos hm]
      · rw [if_neg hm, if_neg hm]
        exact ih

lemma aset_fresh {α : Type} :
    ∀ (l : List (String × α)) (k : String) (v : α), alookup l k = none →
      aset l k v = l ++ [(k, v)] := by
  intro l k v h
  induction l with
  | nil => rfl
  | cons kv rest ih =>
    simp only [alookup] at h
    by_cases hk : kv.1 = k
    · rw [if_pos hk] at h
      cases h
    · rw [if_neg hk] at h
      simp only [aset]
      rw [if_neg hk, List.cons_append, ih h]

lemma aset_keys_of_mem {α : Type} :
    ∀ (l : List (String × α)) (k : String) (v : α), k ∈ l.map Prod.fst →
      (aset l k v).map Prod.fst = l.map Prod.fst := by
  intro l k v h
  induction l with
  | nil => cases h
  | cons kv rest ih =>
    simp only [aset]
    by_cases hk : kv.1 = k
    · rw [if_pos hk]
      simp [hk]
    · rw [if_neg hk]
      simp only [List.map_cons, List.mem_cons] at h ⊢
      rcases h with h | h
      · exact absurd h.symm hk
      · rw [ih h]

lemma keys_aset_nodup {α : Type} (l : List (String × α)) (k : String) (v : α)
    (h : (l.map Prod.fst).Nodup) : ((aset l k v).map Prod.fst).Nodup := by
  by_cases hk : k ∈ l.map Prod.fst
  · rw [aset_keys_of_mem l k v hk]
    exact h
  · rw [aset_fresh l k v (alookup_eq_none_of_not_mem l k hk)]
    simp only [List.map_append, List.map_cons, List.map_nil]
    rw [List.nodup_append]
    refine ⟨h, List.nodup_singleton k, ?_⟩
    intro a ha hb
    simp only [List.mem_singleton] at hb
    subst hb
    exact hk ha

lemma aremove_sublist {α : Type} (l : List (String × α)) (k : String) :
    (aremove l k).Sublist l :=
  List.filter_sublist l

lemma keys_aremove_nodup {α : Type} (l : List (String × α)) (k : String)
    (h : (l.map Prod.fst).Nodup) : ((aremove l k).map Prod.fst).Nodup :=
  List.Nodup.sublist (List.Sublist.map Prod.fst (aremove_sublist l k)) h

lemma mem_aset {α : Type} :
    ∀ (l : List (String × α)) (k : String) (v : α) (kv2 : String × α),
      kv2 ∈ aset l k v → kv2 ∈ l ∨ kv2 = (k, v) := by
  intro l k v kv2 h
  induction l with
  | nil =>
    simp only [aset, List.mem_singleton] at h
    exact Or.inr h
  | cons kv rest ih =>
    simp only [aset] at h
    by_cases hk : kv.1 = k
    · rw [if_pos hk] at h
      rcases List.mem_cons.1 h with h2 | h2
      · exact Or.inr h2
      · exact Or.inl (List.mem_cons_of_mem _ h2)
    · rw [if_neg hk] at h
      rcases List.mem_cons.1 h with h2 | h2
      · exact Or.inl (h2 ▸ List.mem_cons_self _ _)
      · rcases ih h2 with h3 | h3
        · exact Or.inl (List.mem_cons_of_mem _ h3)
        · exact Or.inr h3

lemma mem_entApply {d : List (String × String)} {kv : String × Option String}
    {kv2 : String × String} (h : kv2 ∈ entApply d kv) :
    kv2 ∈ d ∨ ∃ s, kv.2 = some s ∧ kv2 = (kv.1, s) := by
  cases hv : kv.2 with
  | none =>
    simp only [entApply, hv] at h
    exact Or.inl (List.Sublist.mem h (aremove_sublist d kv.1))
  | some s =>
    simp only [entApply, hv] at h
    by_cases hs : s = ""
    · rw [if_pos hs] at h
      exact Or.inl (List.Sublist.mem h (aremove_sublist d kv.1))
    · rw [if_neg hs] at h
      rcases mem_aset d kv.1 s kv2 h with h2 | h2
      · exact Or.inl h2
      · exact Or.inr ⟨s, rfl, h2⟩

lemma mem_foldl_entApply :
    ∀ (l : List (String × Option String)) (d : List (String × String))
      (kv2 : String × String), kv2 ∈ l.foldl entApply d →
      kv2 ∈ d ∨ ∃ kv ∈ l, ∃ s, kv.2 = some s ∧ kv2 = (kv.1, s) := by
  intro l
  induction l with
  | nil => intro d kv2 h; exact Or.inl h
  | cons kv rest ih =>
    intro d kv2 h
    simp only [List.foldl_cons] at h
    rcases ih (entApply d kv) kv2 h with h2 | h2
    · rcases mem_entApply h2 with h3 | h3
      · exact Or.inl h3
      · rcases h3 with ⟨s, hs, he⟩
        exact Or.inr ⟨kv, List.mem_cons_self _ _, s, hs, he⟩
    · rcases h2 with ⟨kv3, hm, s, hs, he⟩
      exact Or.inr ⟨kv3, List.mem_cons_of_mem _ hm, s, hs, he⟩

lemma entApply_of_none (d : List (String × String)) (kv : String × Option String)
    (h : kv.2 = none) : entApply d kv = aremove d kv.1 := by
  unfold entApply
  rw [h]

lemma entApply_of_empty (d : List (String × String)) (kv : String × Option String)
    (h : kv.2 = some "") : entApply d kv = aremove d kv.1 := by
  unfold entApply
  rw [h]
  simp

lemma entApply_of_some (d : List (String × String)) (kv : String × Option String)
    (s : String) (h : kv.2 = some s) (hs : s ≠ "") : entApply d kv = aset d kv.1 s := by
  unfold entApply
  rw [h]
  simp [hs]

lemma keys_entApply_nodup (d : List (String × String)) (kv : String × Option String)
    (h : (d.map Prod.fst).Nodup) : ((entApply d kv).map Prod.fst).Nodup := by
  cases hv : kv.2 with
  | none =>
    rw [entApply_of_none d kv hv]
    exact keys_aremove_nodup d kv.1 h
  | some s =>
    by_cases hs : s = ""
    · rw [entApply_of_empty d kv (hs ▸ hv)]
      exact keys_aremove_nodup d kv.1 h
    · rw [entApply_of_some d kv s hv hs]
      exact keys_aset_nodup d kv.1 s h

lemma keys_foldl_entApply_nodup :
    ∀ (l : List (String × Option String)) (d : List (String × String)),
      (d.map Prod.fst).Nodup → ((l.foldl entApply d).map Prod.fst).Nodup := by
  intro l
  induction l with
  | nil => intro d h; exact h
  | cons kv rest ih =>
    intro d h
    simp only [List.foldl_cons]
    exact ih (entApply d kv) (keys_entApply_nodup d kv h)

/-! ### Folding lemmas: overwriting a dict with section items and
writing repo entries into a section -/

lemma alookup_foldl_aset_of_none {α β : Type} (t : α → β) :
    ∀ (l : List (String × α)) (d : List (String × β)) (k : String),
      alookup l k = none →
      alookup (l.foldl (fun d2 kv => aset d2 kv.1 (t kv.2)) d) k = alookup d k := by
  intro l
  induction l with
  | nil => intro d k _; rfl
  | cons kv rest ih =>
    intro d k h
    simp only [alookup] at h
    by_cases hk : kv.1 = k
    · rw [if_pos hk] at h
      cases h
    · rw [if_neg hk] at h
      simp only [List.foldl_cons]
      rw [ih _ k h, alookup_aset_ne _ _ _ _ hk]

lemma alookup_foldl_aset_of_some {α β : Type} (t : α → β) :
    ∀ (l : List (String × α)) (d : List (String × β)) (k : String) (v : α),
      (l.map Prod.fst).Nodup → alookup l k = some v →
      alookup (l.foldl (fun d2 kv => aset d2 kv.1 (t kv.2)) d) k = some (t v) := by
  intro l
  induction l with
  | nil => intro d k v _ h; cases h
  | cons kv rest ih =>
    intro d k v hnd h
    simp only [List.map_cons, List.nodup_cons] at hnd
    simp only [alookup] at h
    simp only [List.foldl_cons]
    by_cases hk : kv.1 = k
    · rw [if_pos hk] at h
      injection h with h2
      subst h2
      subst hk
      have hr : alookup rest kv.1 = none :=
        alookup_eq_none_of_not_mem rest kv.1 hnd.1
      rw [alookup_foldl_aset_of_none t rest _ kv.1 hr]
      exact alookup_aset_self d kv.1 (t kv.2)
    · rw [if_neg hk] at h
      exact ih _ k v hnd.2 h

lemma alookup_entApply_ne (d : List (String × String)) (kv : String × Option String)
    (k : String) (h : kv.1 ≠ k) : alookup (entApply d kv) k = alookup d k := by
  cases hv : kv.2 with
  | none =>
    rw [entApply_of_none d kv hv]
    exact alookup_aremove_ne d kv.1 k h
  | some s =>
    by_cases hs : s = ""
    · rw [entApply_of_empty d kv (hs ▸ hv)]
      exact alookup_aremove_ne d kv.1 k h
    · rw [entApply_of_some d kv s hv hs]
      exact alookup_aset_ne d kv.1 k s h

lemma alookup_foldl_entApply_of_none :
    ∀ (l : List (String × Option String)) (d : List (String × String)) (k : String),
      alookup l k = none →
      alookup (l.foldl entApply d) k = alookup d k := by
  intro l
  induction l with
  | nil => intro d k _; rfl
  | cons kv rest ih =>
    intro d k h
    simp only [alookup] at h
    by_cases hk : kv.1 = k
    · rw [if_pos hk] at h
      cases h
    · rw [if_neg hk] at h
      simp only [List.foldl_cons]
      rw [ih _ k h, alookup_entApply_ne d kv k hk]

lemma alookup_foldl_entApply_of_some :
    ∀ (l : List (String × Option String)) (d : List (String × String)) (k : String)
      (v : Option String),
      (l.map Prod.fst).Nodup → alookup l k = some v →
      alookup (l.foldl entApply d) k = entVal v := by
  intro l
  induction l with
  | nil => intro d k v _ h; cases h
  | cons kv rest ih =>
    intro d k v hnd h
    simp only [List.map_cons, List.nodup_cons] at hnd
    simp only [alookup] at h
    simp only [List.foldl_cons]
    by_cases hk : kv.1 = k
    · rw [if_pos hk] at h
      injection h with h2
      subst h2
      subst hk
      have hr : alookup rest kv.1 = none :=
        alookup_eq_none_of_not_mem rest kv.1 hnd.1
      rw [alookup_foldl_entApply_of_none rest _ kv.1 hr]
      cases hv : kv.2 with
      | none =>
        rw [entApply_of_none d kv hv]
        exact alookup_aremove_self d kv.1
      | some s =>
        by_cases hs : s = ""
        · rw [entApply_of_empty d kv (hs ▸ hv)]
          have he : entVal (some s) = none := by simp [entVal, hs]
          rw [he]
          exact alookup_aremove_self d kv.1
        · rw [entApply_of_some d kv s hv hs]
          have he : entVal (some s) = some s := by simp [entVal, hs]
          rw [he]
          exact alookup_aset_self d kv.1 s
    · rw [if_neg hk] at h
      exact ih _ k v hnd.2 h

/-! ### Section update lemmas -/

lemma updSection_keys (secs : List (String × List (String × String))) (n : String)
    (f : List (String × String) → List (String × String)) :
    (updSection secs n f).map Prod.fst = secs.map Prod.fst := by
  induction secs with
  | nil => rfl
  | cons s rest ih =>
    simp only [updSection, List.map_cons] at ih ⊢
    by_cases hs : s.1 = n
    · rw [if_pos hs]
      simpa using ih
    · rw [if_neg hs]
      simpa using ih

lemma hasSection_updSection (p : ConfigParser) (n m : String)
    (f : List (String × String) → List (String × String)) :
    ConfigParser.hasSection ⟨updSection p.sections n f⟩ m = p.hasSection m := by
  unfold ConfigParser.hasSection
  by_cases h : m ∈ p.sections.map Prod.fst
  · have h1 : (alookup (updSection p.sections n f) m).isSome = true := by
      rw [alookup_isSome_iff, updSection_keys]
      exact h
    have h2 : (alookup p.sections m).isSome = true := by
      rw [alookup_isSome_iff]
      exact h
    rw [h1, h2]
  · have h1 : alookup (updSection p.sections n f) m = none := by
      apply alookup_eq_none_of_not_mem
      rw [updSection_keys]
      exact h
    have h2 : alookup p.sections m = none := alookup_eq_none_of_not_mem _ _ h
    rw [h1, h2]

lemma alookup_updSection_self (secs : List (String × List (String × String))) (n : String)
    (f : List (String × String) → List (String × String)) :
    alookup (updSection secs n f) n = (alookup secs n).map f := by
  induction secs with
  | nil => rfl
  | cons s rest ih =>
    simp only [updSection, List.map_cons] at ih ⊢
    by_cases hs : s.1 = n
    · rw [if_pos hs]
      simp only [alookup, if_pos hs]
      rfl
    · rw [if_neg hs]
      simp only [alookup, if_neg hs]
      exact ih

lemma alookup_updSection_ne (secs : List (String × List (String × String))) (n m : String)
    (f : List (String × String) → List (String × String)) (h : n ≠ m) :
    alookup (updSection secs n f) m = alookup secs m := by
  induction secs with
  | nil => rfl
  | cons s rest ih =>
    simp only [updSection, List.map_cons] at ih ⊢
    by_cases hs : s.1 = n
    · rw [if_pos hs]
      have h2 : s.1 ≠ m := fun e => h (hs.symm.trans e)
      simp only [alookup, if_neg (hs ▸ h), if_neg h2]
      exact ih
    · rw [if_neg hs]
      simp only [alookup]
      by_cases hm : s.1 = m
      · rw [if_pos hm, if_pos hm]
      · rw [if_neg hm, if_neg hm]
        exact ih

lemma updSection_comp (secs : List (String × List (String × String))) (n : String)
    (f g : List (String × String) → List (String × String)) :
    updSection (updSection secs n f) n g = updSection secs n (fun ps => g (f ps)) := by
  induction secs with
  | nil => rfl
  | cons s rest ih =>
    simp only [updSection, List.map_cons] at ih ⊢
    by_cases hs : s.1 = n
    · rw [if_pos hs]
      simp only [if_pos hs]
      rw [List.cons_inj_right]
      exact ih
    · rw [if_neg hs]
      simp only [if_neg hs]
      rw [List.cons_inj_right]
      exact ih

lemma updSection_id (secs : List (String × List (String × String))) (n : String) :
    updSection secs n (fun ps => ps) = secs := by
  induction secs with
  | nil => rfl
  | cons s rest ih =>
    simp only [updSection, List.map_cons] at ih ⊢
    by_cases hs : s.1 = n
    · rw [if_pos hs, ih]
    · rw [if_neg hs, ih]

lemma updSection_fresh_append (secs : List (String × List (String × String))) (n : String)
    (ps : List (String × String)) (f : List (String × String) → List (String × String))
    (h : alookup secs n = none) :
    updSection (secs ++ [(n, ps)]) n f = secs ++ [(n, f ps)] := by
  induction secs with
  | nil => simp [updSection]
  | cons s rest ih =>
    simp only [alookup] at h
    by_cases hs : s.1 = n
    · rw [if_pos hs] at h
      cases h
    · rw [if_neg hs] at h
      simp only [List.cons_append, updSection, List.map_cons, if_neg hs]
      rw [List.cons_inj_right]
      exact ih h

/-! ### writeEntries and repoToParser lemmas -/

lemma entryOp_ok (p : ConfigParser) (id : String) (kv : String × Option String)
    (h : p.hasSection id = true) :
    entryOp p id kv = .ok ⟨updSection p.sections id (fun ps => entApply ps kv)⟩ := by
  cases hv : kv.2 with
  | none =>
    have he : (fun ps => entApply ps kv) = (fun ps => aremove ps kv.1) :=
      funext fun ps => entApply_of_none ps kv hv
    rw [he]
    simp only [entryOp, hv, ConfigParser.removeOption, if_pos h]
  | some s =>
    by_cases hs : s = ""
    · have he : (fun ps => entApply ps kv) = (fun ps => aremove ps kv.1) :=
        funext fun ps => entApply_of_empty ps kv (hs ▸ hv)
      rw [he]
      simp only [entryOp, hv, if_pos hs, ConfigParser.removeOption, if_pos h]
    · have he : (fun ps => entApply ps kv) = (fun ps => aset ps kv.1 s) :=
        funext fun ps => entApply_of_some ps kv s hv hs
      rw [he]
      simp only [entryOp, hv, if_neg hs, ConfigParser.set, if_pos h]

lemma writeEntries_ok :
    ∀ (l : List (String × Option String)) (p : ConfigParser) (id : String),
      p.hasSection id = true →
      writeEntries p id l = .ok ⟨updSection p.sections id (fun ps => l.foldl entApply ps)⟩ := by
  intro l
  induction l with
  | nil =>
    intro p id h
    simp only [writeEntries, List.foldl_nil, updSection_id]
  | cons kv rest ih =>
    intro p id h
    simp only [writeEntries]
    rw [entryOp_ok p id kv h]
    have h2 : ConfigParser.hasSection ⟨updSection p.sections id (fun ps => entApply ps kv)⟩ id = true := by
      rw [hasSection_updSection]
      exact h
    show writeEntries ⟨updSection p.sections id (fun ps => entApply ps kv)⟩ id rest = _
    rw [ih _ id h2]
    simp only [updSection_comp, List.foldl_cons]

/-! ### Repo record lemmas -/

lemma repoInit_data (n : String) : (Repo.init n).data = PROPERTIES := rfl

lemma repoInit_id (n : String) : (Repo.init n).id = n := rfl

lemma hasKey_of_get_some (r : Repo) (k : String) (v : String) (h : r.get k = some v) :
    r.hasKey k = true := by
  unfold Repo.hasKey
  cases h2 : alookup r.data k with
  | none =>
    exfalso
    unfold Repo.get at h
    rw [h2] at h
    exact Option.noConfusion (show (none : Option String) = some v from h)
  | some x => rfl

lemma mem_ite_nil {α : Type} {c : Prop} [Decidable c] {l : List α} {a : α}
    (h : a ∈ if c then l else []) : a ∈ l := by
  by_cases hc : c
  · rwa [if_pos hc] at h
  · rw [if_neg hc] at h
    cases h

lemma items_keys (r : Repo) :
    r.items.map Prod.fst =
      (["name", "enabled", "gpgkey", "sslverify", "gpgcheck"]
        ++ (if r.hasKey "baseurl" then ["baseurl"] else [])
        ++ (if r.hasKey "mirrorlist" then ["mirrorlist"] else [])) := by
  by_cases hb : r.hasKey "baseurl" <;> by_cases hm : r.hasKey "mirrorlist" <;>
    simp [Repo.items, hb, hm, PROPERTIES]

lemma items_keys_nodup (r : Repo) : (r.items.map Prod.fst).Nodup := by
  rw [items_keys]
  by_cases hb : r.hasKey "baseurl" <;> by_cases hm : r.hasKey "mirrorlist" <;>
    simp [hb, hm]

lemma items_keys_recognized (r : Repo) :
    ∀ kv ∈ r.items, kv.1 ∈ recognizedKeys := by
  intro kv hkv
  have hmem : kv.1 ∈ r.items.map Prod.fst := List.mem_map_of_mem Prod.fst hkv
  rw [items_keys] at hmem
  rcases List.mem_append.1 hmem with h | h
  · rcases List.mem_append.1 h with h1 | h1
    · simp only [recognizedKeys, List.mem_cons, List.mem_singleton] at h1 ⊢
      tauto
    · have := mem_ite_nil h1
      simp only [List.mem_singleton] at this
      simp [recognizedKeys, this]
  · have := mem_ite_nil h
    simp only [List.mem_singleton] at this
    simp [recognizedKeys, this]

lemma items_shape (r : Repo) :
    ∀ kv ∈ r.items, kv.2 = r.get kv.1 := by
  intro kv hkv
  unfold Repo.items at hkv
  rcases List.mem_append.1 hkv with h | h
  · rcases List.mem_append.1 h with h1 | h1
    · rcases List.mem_map.1 h1 with ⟨kd, _, he⟩
      rw [← he]
    · have := mem_ite_nil h1
      simp only [List.mem_singleton] at this
      rw [this]
  · have := mem_ite_nil h
    simp only [List.mem_singleton] at this
    rw [this]

lemma items_values_wf (r : Repo) (hwf : wfRepo r) :
    ∀ kv ∈ r.items, wfOptValue kv.2 = true := by
  intro kv hkv
  rw [items_shape r kv hkv]
  unfold Repo.get
  cases h : alookup r.data kv.1 with
  | none => rfl
  | some v =>
    have hm := mem_of_alookup_eq_some r.data kv.1 v h
    exact hwf.2 _ hm

lemma alookup_items_first (r : Repo) (k : String)
    (hk : k ∈ ["name", "enabled", "gpgkey", "sslverify", "gpgcheck"]) :
    alookup r.items k = some (r.get k) := by
  simp only [List.mem_cons, List.not_mem_nil, or_false] at hk
  rcases hk with h | h | h | h | h <;> subst h <;>
    simp [Repo.items, PROPERTIES, alookup, alookup_append]

lemma alookup_items_baseurl (r : Repo) (h : r.hasKey "baseurl" = true) :
    alookup r.items "baseurl" = some (r.get "baseurl") := by
  simp [Repo.items, PROPERTIES, alookup, alookup_append, h]

lemma alookup_items_mirrorlist (r : Repo) (h : r.hasKey "mirrorlist" = true) :
    alookup r.items "mirrorlist" = some (r.get "mirrorlist") := by
  by_cases hb : r.hasKey "baseurl" <;>
    simp [Repo.items, PROPERTIES, alookup, alookup_append, h, hb]

lemma alookup_items_of_get (r : Repo) (k : String) (v : String)
    (hk : k ∈ recognizedKeys) (hv : r.get k = some v) :
    alookup r.items k = some (some v) := by
  simp only [recognizedKeys, List.mem_cons, List.not_mem_nil, or_false] at hk
  rcases hk with h | h | h | h | h | h | h
  · subst h; rw [alookup_items_first r _ (by simp), hv]
  · subst h; rw [alookup_items_first r _ (by simp), hv]
  · subst h; rw [alookup_items_first r _ (by simp), hv]
  · subst h; rw [alookup_items_first r _ (by simp), hv]
  · subst h; rw [alookup_items_first r _ (by simp), hv]
  · subst h
    rw [alookup_items_baseurl r (hasKey_of_get_some r _ v hv), hv]
  · subst h
    rw [alookup_items_mirrorlist r (hasKey_of_get_some r _ v hv), hv]

lemma truthy_false_iff (v : Option String) :
    truthy v = false ↔ v = none ∨ v = some "" := by
  cases v with
  | none => simp [truthy]
  | some s =>
    simp only [truthy, decide_eq_false_iff_not, ne_eq, not_not]
    constructor
    · intro h
      exact Or.inr (by rw [h])
    · rintro (h | h)
      · cases h
      · injection h

lemma entVal_of_falsy (v : Option String) (h : truthy v = false) : entVal v = none := by
  rcases (truthy_false_iff v).1 h with h2 | h2 <;> subst h2 <;> simp [entVal]

lemma entVal_of_truthy (s : String) (hs : s ≠ "") : entVal (some s) = some s := by
  simp [entVal, hs]

lemma items_head (r : Repo) : ∃ rest, r.items = ("name", r.get "name") :: rest :=
  ⟨_, rfl⟩

/-! ### Claim C1 -/

/-- C1 counterexample: the claim says a key absent in the section (such as
enabled) is absent in the record reconstructed by get_repo.  In c1doc the
section r1 holds only baseurl, yet the reconstructed record maps enabled to
its default value, because _parser_to_repo starts from the Repo constructor
which populates every defaulted property. -/
theorem c1_counterexample :
    alookup (ConfigParser.items c1doc "r1") "enabled" = none ∧
    (getRepo c1doc "r1").map (fun r => alookup r.data "enabled") =
      some (some (some "1")) := by
  decide

/-- C1 amended: for every section present in the document, get_repo returns
a record with id equal to the section name in which every key present in
the section is copied verbatim, while a key absent from the section falls
back to the default table PROPERTIES: the five declared properties appear
with their declared defaults and any other absent key is absent. -/
theorem c1_get_repo_amended (p : ConfigParser) (n : String)
    (hs : p.hasSection n = true)
    (hnd : ((p.items n).map Prod.fst).Nodup) :
    ∃ r, getRepo p n = some r ∧ r.id = n ∧
      (∀ k v, alookup (p.items n) k = some v → alookup r.data k = some (some v)) ∧
      (∀ k, alookup (p.items n) k = none → alookup r.data k = alookup PROPERTIES k) := by
  refine ⟨parserToRepo p n, ?_, rfl, ?_, ?_⟩
  · simp [getRepo, hs]
  · intro k v h
    show alookup ((p.items n).foldl (fun d kv => aset d kv.1 (some kv.2)) (Repo.init n).data) k
      = some (some v)
    exact alookup_foldl_aset_of_some some _ _ k v hnd h
  · intro k h
    show alookup ((p.items n).foldl (fun d kv => aset d kv.1 (some kv.2)) (Repo.init n).data) k
      = alookup PROPERTIES k
    rw [alookup_foldl_aset_of_none some _ _ k h, repoInit_data]

theorem c1_get_repo_amended_witness :
    ∃ r, getRepo c1doc "r1" = some r ∧ r.id = "r1" ∧
      (∀ k v, alookup (ConfigParser.items c1doc "r1") k = some v →
        alookup r.data k = some (some v)) ∧
      (∀ k, alookup (ConfigParser.items c1doc "r1") k = none →
        alookup r.data k = alookup PROPERTIES k) :=
  c1_get_repo_amended c1doc "r1" (by decide) (by decide)

/-! ### Claim C2 -/

/-- C2 counterexample: the claim says the fresh record's entry sequence is
exactly the three defaulted pairs with name and gpgkey omitted.  In the
source, Repo.items appends a pair for every PROPERTIES key unconditionally,
so the sequence has five pairs including name and gpgkey with value None. -/
theorem c2_counterexample :
    (Repo.init "x").items ≠
      [("enabled", some "1"), ("sslverify", some "0"), ("gpgcheck", some "0")] ∧
    ("name", (none : Option String)) ∈ (Repo.init "x").items := by
  decide

/-- C2 amended: for every id, the entry sequence of a freshly created record
is exactly the five declared properties in declaration order with their
default values; name and gpgkey are present carrying None (no value), and
baseurl and mirrorlist are absent. -/
theorem c2_fresh_items_amended (id : String) :
    (Repo.init id).items =
      [("name", none), ("enabled", some "1"), ("gpgkey", none),
       ("sslverify", some "0"), ("gpgcheck", some "0")] := rfl

/-! ### Claim C3 -/

/-- C3 counterexample: the claim says that after update_repo removes a key
set to a falsy value, a subsequent get_repo returns a record in which that
key does not appear.  Setting enabled to the empty string on c3doc removes
the key from the section, but the reconstructed record still contains
enabled, with its default value. -/
theorem c3_counterexample :
    updateRepo c3doc c3repo =
      .ok ⟨[("r1", [("sslverify", "0"), ("gpgcheck", "0")])]⟩ ∧
    (getRepo ⟨[("r1", [("sslverify", "0"), ("gpgcheck", "0")])]⟩ "r1").map
      (fun rec => alookup rec.data "enabled") = some (some (some "1")) := by
  decide

/-- C3 amended: for every record whose section exists, update_repo applies
the set or omit rule to each entry: a falsy entry's key is removed from the
persisted section, and in the record a subsequent get_repo reconstructs the
key reverts to the default table (so it is absent exactly when it is not
one of the five declared properties); a truthy entry overwrites the key in
the section with that string, and get_repo returns that string for it. -/
theorem c3_update_repo_amended (p : ConfigParser) (r : Repo)
    (hs : p.hasSection r.id = true)
    (hnd : ((p.items r.id).map Prod.fst).Nodup) :
    ∃ p2 rec, updateRepo p r = .ok p2 ∧ getRepo p2 r.id = some rec ∧
      ∀ kv ∈ r.items,
        (truthy kv.2 = false →
          alookup (p2.items r.id) kv.1 = none ∧
          alookup rec.data kv.1 = alookup PROPERTIES kv.1) ∧
        (∀ s, kv.2 = some s → s ≠ "" →
          alookup (p2.items r.id) kv.1 = some s ∧ rec.get kv.1 = some s) := by
  have hw : updateRepo p r =
      .ok ⟨updSection p.sections r.id (fun ps => r.items.foldl entApply ps)⟩ :=
    writeEntries_ok r.items p r.id hs
  set p2 : ConfigParser :=
    ⟨updSection p.sections r.id (fun ps => r.items.foldl entApply ps)⟩ with hp2
  have hps2 : p2.hasSection r.id = true := by
    rw [hp2, hasSection_updSection]
    exact hs
  have hitems : p2.items r.id = r.items.foldl entApply (p.items r.id) := by
    rw [hp2]
    unfold ConfigParser.items
    rw [alookup_updSection_self]
    cases hlk : alookup p.sections r.id with
    | none =>
      exfalso
      unfold ConfigParser.hasSection at hs
      rw [hlk] at hs
      cases hs
    | some ps0 => rfl
  refine ⟨p2, parserToRepo p2 r.id, hw, by simp [getRepo, hps2], ?_⟩
  intro kv hkv
  have hlk : alookup r.items kv.1 = some kv.2 :=
    alookup_of_mem_nodup r.items kv.1 kv.2 (items_keys_nodup r) hkv
  have hsec : alookup (p2.items r.id) kv.1 = entVal kv.2 := by
    rw [hitems]
    exact alookup_foldl_entApply_of_some r.items _ kv.1 kv.2 (items_keys_nodup r) hlk
  constructor
  · intro hf
    have hnone : alookup (p2.items r.id) kv.1 = none := by
      rw [hsec, entVal_of_falsy kv.2 hf]
    refine ⟨hnone, ?_⟩
    show alookup ((p2.items r.id).foldl (fun d kv2 => aset d kv2.1 (some kv2.2))
      (Repo.init r.id).data) kv.1 = alookup PROPERTIES kv.1
    rw [alookup_foldl_aset_of_none some _ _ kv.1 hnone, repoInit_data]
  · intro s hv hsne
    have hsome : alookup (p2.items r.id) kv.1 = some s := by
      rw [hsec, hv, entVal_of_truthy s hsne]
    have hnd2 : ((p2.items r.id).map Prod.fst).Nodup := by
      rw [hitems]
      exact keys_foldl_entApply_nodup r.items _ hnd
    refine ⟨hsome, ?_⟩
    have hrec : alookup (parserToRepo p2 r.id).data kv.1 = some (some s) := by
      show alookup ((p2.items r.id).foldl (fun d kv2 => aset d kv2.1 (some kv2.2))
        (Repo.init r.id).data) kv.1 = some (some s)
      exact alookup_foldl_aset_of_some some _ _ kv.1 s hnd2 hsome
    unfold Repo.get
    rw [hrec]

theorem c3_update_repo_amended_witness :
    ∃ p2 rec, updateRepo c3doc c3repo = .ok p2 ∧ getRepo p2 c3repo.id = some rec ∧
      ∀ kv ∈ c3repo.items,
        (truthy kv.2 = false →
          alookup (p2.items c3repo.id) kv.1 = none ∧
          alookup rec.data kv.1 = alookup PROPERTIES kv.1) ∧
        (∀ s, kv.2 = some s → s ≠ "" →
          alookup (p2.items c3repo.id) kv.1 = some s ∧ rec.get kv.1 = some s) :=
  c3_update_repo_amended c3doc c3repo (by decide) (by decide)

/-! ### Claim C6 -/

/-- C6: adding a record whose id names an existing section fails with the
conflict error before touching the document, and updating a record whose id
names no section fails with the not-found error before touching the
document; in this functional embedding an error result carries no modified
document, so the in-memory store is unchanged in both cases. -/
theorem c6_add_update_errors (p : ConfigParser) (r r2 : Repo)
    (h1 : p.hasSection r.id = true) (h2 : p.hasSection r2.id = false) :
    addRepo p r = .error .conflict ∧ updateRepo p r2 = .error .notFound := by
  constructor
  · unfold addRepo ConfigParser.addSection
    rw [if_pos h1]
  · unfold updateRepo repoToParser
    obtain ⟨rest, hrest⟩ := items_head r2
    rw [hrest]
    simp only [writeEntries]
    cases hv : r2.get "name" with
    | none => simp [entryOp, hv, ConfigParser.removeOption, h2]
    | some s =>
      by_cases hse : s = "" <;>
        simp [entryOp, hv, hse, ConfigParser.set, ConfigParser.removeOption, h2]

theorem c6_add_update_errors_witness :
    addRepo ⟨[("a", [])]⟩ (Repo.init "a") = .error .conflict ∧
    updateRepo ⟨[("a", [])]⟩ (Repo.init "b") = .error .notFound :=
  c6_add_update_errors ⟨[("a", [])]⟩ (Repo.init "a") (Repo.init "b")
    (by decide) (by decide)

/-! ### Claim C8 -/

/-- C8 counterexample: the claim says construction fails with
InvalidArgument whenever the path is empty or null.  The source only checks
for None (filename is None); the empty string is accepted by both
constructors. -/
theorem c8_counterexample :
    RepoFile.init (some "") = .ok { filename := "", parser := ⟨[]⟩ } ∧
    MirrorListFile.init (some "") = .ok { filename := "", entries := [] } := by
  decide

/-- C8 amended: constructing a RepoCollectionFile or a MirrorListFile fails
with InvalidArgument exactly when the path is null (None); any string,
including the empty string, is accepted.  Construction is pure in this
model: it only builds the in-memory state and touches no file. -/
theorem c8_construction_amended :
    RepoFile.init none = .error .invalidArgument ∧
    MirrorListFile.init none = .error .invalidArgument ∧
    (∀ s : String, RepoFile.init (some s) = .ok { filename := s, parser := ⟨[]⟩ }) ∧
    (∀ s : String, MirrorListFile.init (some s) = .ok { filename := s, entries := [] }) :=
  ⟨rfl, rfl, fun _ => rfl, fun _ => rfl⟩

/-! ### MirrorListFile lemmas (claims C9 and C10) -/

lemma stringMk_data (s : String) : String.mk s.data = s := by
  cases s
  rfl

lemma string_eq_empty_of_data_nil (s : String) (h : s.data = []) : s = "" := by
  cases s
  simp only at h
  rw [h]

lemma stringMk_ne_empty (t : List Char) (h : t ≠ []) : String.mk t ≠ "" := by
  intro he
  apply h
  have : (String.mk t).data = ("" : String).data := by rw [he]
  simpa using this

lemma pySplitAux_token :
    ∀ (tok acc cs : List Char), (∀ c ∈ tok, isPySpace c = false) →
      pySplitAux acc (tok ++ cs) = pySplitAux (acc ++ tok) cs := by
  intro tok
  induction tok with
  | nil => intro acc cs _; simp
  | cons c tok2 ih =>
    intro acc cs h
    have hc : isPySpace c = false := h c (List.mem_cons_self _ _)
    simp only [List.cons_append, pySplitAux, hc]
    simp only [Bool.false_eq_true, if_false, List.append_eq]
    rw [ih (acc ++ [c]) cs (fun c2 h2 => h c2 (List.mem_cons_of_mem _ h2))]
    rw [List.append_assoc]
    rfl

lemma pySplitAux_tokens_good :
    ∀ (cs acc : List Char), (∀ c ∈ acc, isPySpace c = false) →
      ∀ t ∈ pySplitAux acc cs, t ≠ [] ∧ ∀ c ∈ t, isPySpace c = false := by
  intro cs
  induction cs with
  | nil =>
    intro acc hinv t ht
    simp only [pySplitAux] at ht
    by_cases ha : acc = []
    · rw [if_pos ha] at ht
      cases ht
    · rw [if_neg ha] at ht
      simp only [List.mem_singleton] at ht
      subst ht
      exact ⟨ha, hinv⟩
  | cons c cs2 ih =>
    intro acc hinv t ht
    simp only [pySplitAux] at ht
    by_cases hc : isPySpace c
    · rw [if_pos hc] at ht
      by_cases ha : acc = []
      · rw [if_pos ha] at ht
        exact ih [] (by intro c2 h2; cases h2) t ht
      · rw [if_neg ha] at ht
        rcases List.mem_cons.1 ht with h | h
        · subst h
          exact ⟨ha, hinv⟩
        · exact ih [] (by intro c2 h2; cases h2) t h
    · rw [if_neg hc] at ht
      have hinv2 : ∀ c2 ∈ acc ++ [c], isPySpace c2 = false := by
        intro c2 h2
        rcases List.mem_append.1 h2 with h3 | h3
        · exact hinv c2 h3
        · simp only [List.mem_singleton] at h3
          subst h3
          simpa using hc
      exact ih (acc ++ [c]) hinv2 t ht

lemma pySplit_tokens_good (content : List Char) :
    ∀ t ∈ pySplit content, t ≠ [] ∧ ∀ c ∈ t, isPySpace c = false :=
  pySplitAux_tokens_good content [] (by intro c hc; cases hc)

lemma pySplit_save :
    ∀ (es : List (List Char)), (∀ e ∈ es, e ≠ [] ∧ ∀ c ∈ e, isPySpace c = false) →
      pySplitAux [] (joinLines es) = es := by
  intro es
  induction es with
  | nil => intro _; rfl
  | cons e rest ih =>
    intro h
    have he := h e (List.mem_cons_self _ _)
    simp only [joinLines]
    rw [pySplitAux_token e [] ('\n' :: joinLines rest) he.2]
    simp only [List.nil_append, pySplitAux]
    have hsp : isPySpace '\n' = true := by decide
    rw [hsp, if_pos rfl, if_neg he.1]
    rw [ih (fun e2 h2 => h e2 (List.mem_cons_of_mem _ h2))]

/-! ### Claim C9 -/

/-- C9: load splits the file content on whitespace runs, discarding empty
tokens and preserving order: every loaded entry is a non-empty whitespace-
free token, the saved sequence a, b reloads as a, b, and the content
composed of a, two newlines, b, a tab, and c loads as a, b, c. -/
theorem c9_mirrorlist_load :
    (∀ content : List Char, ∀ t ∈ MirrorListFile.loadEntries content,
      t ≠ "" ∧ ∀ c ∈ t.data, isPySpace c = false) ∧
    MirrorListFile.loadEntries (MirrorListFile.saveContent ["a", "b"]) = ["a", "b"] ∧
    MirrorListFile.loadEntries ("a\n\nb\tc" : String).data = ["a", "b", "c"] := by
  refine ⟨?_, by decide, by decide⟩
  intro content t ht
  unfold MirrorListFile.loadEntries at ht
  rcases List.mem_map.1 ht with ⟨tok, htok, rfl⟩
  have hg := pySplit_tokens_good content tok htok
  refine ⟨stringMk_ne_empty tok hg.1, ?_⟩
  intro c hc
  exact hg.2 c (by simpa using hc)

theorem c9_mirrorlist_load_witness :
    ("a" : String) ≠ "" ∧ ∀ c ∈ ("a" : String).data, isPySpace c = false :=
  c9_mirrorlist_load.1 (" a " : String).data "a" (by decide)

/-! ### Claim C10 -/

/-- C10: save followed by load restores the in-memory sequence exactly if
and only if every entry is a non-empty string without whitespace; when some
entry is empty or holds whitespace, the reloaded sequence differs (the
entry is dropped or split into several tokens). -/
theorem c10_mirrorlist_roundtrip_iff (entries : List String) :
    MirrorListFile.loadEntries (MirrorListFile.saveContent entries) = entries ↔
      ∀ e ∈ entries, e ≠ "" ∧ ∀ c ∈ e.data, isPySpace c = false := by
  constructor
  · intro h e he
    rw [← h] at he
    unfold MirrorListFile.loadEntries at he
    rcases List.mem_map.1 he with ⟨t, ht, rfl⟩
    have hg := pySplit_tokens_good _ t ht
    refine ⟨stringMk_ne_empty t hg.1, ?_⟩
    intro c hc
    exact hg.2 c (by simpa using hc)
  · intro h
    unfold MirrorListFile.loadEntries MirrorListFile.saveContent pySplit
    rw [pySplit_save (entries.map String.data) ?_]
    · rw [List.map_map]
      have : (String.mk ∘ String.data) = id := funext fun s => stringMk_data s
      rw [this, List.map_id]
    · intro e2 he2
      rcases List.mem_map.1 he2 with ⟨e, he, rfl⟩
      refine ⟨?_, (h e he).2⟩
      intro hnil
      exact (h e he).1 (string_eq_empty_of_data_nil e hnil)

theorem c10_mirrorlist_roundtrip_iff_witness :
    MirrorListFile.loadEntries (MirrorListFile.saveContent ["a", "bc"]) = ["a", "bc"] :=
  (c10_mirrorlist_roundtrip_iff ["a", "bc"]).2 (by decide)

/-! ### Reader scanning lemmas (claims C4 and C5) -/

lemma scanFuel_all_blank :
    ∀ (fuel : Nat) (lines : List (List Char)) (i nl : Nat),
      (∀ l ∈ lines.drop i, l = []) → scanFuel fuel lines i nl = none := by
  intro fuel
  induction fuel with
  | zero => intro lines i nl _; rfl
  | succ f ih =>
    intro lines i nl h
    simp only [scanFuel]
    cases hg : lines[i]? with
    | none => rfl
    | some ln =>
      have hmem : ln ∈ lines.drop i := by
        have h0 : (lines.drop i)[0]? = some ln := by
          rw [List.getElem?_drop]
          simpa using hg
        exact List.getElem?_mem h0
      have hln : ln = [] := h ln hmem
      show (if ln = [] then scanFuel f lines (i + 1) (nl + 1) else some (i + 1, nl, ln)) = none
      rw [if_pos hln]
      apply ih
      intro l hl
      apply h
      have ht : lines.drop (i + 1) = (lines.drop i).tail := (List.tail_drop lines i).symm
      rw [ht] at hl
      exact List.mem_of_mem_tail hl

lemma scanFuel_found :
    ∀ (bs : List (List Char)) (fuel : Nat) (lines : List (List Char)) (i nl : Nat)
      (x : List Char) (rest : List (List Char)),
      lines.drop i = bs ++ x :: rest → (∀ l ∈ bs, l = []) → x ≠ [] →
      bs.length + 1 ≤ fuel →
      scanFuel fuel lines i nl = some (i + bs.length + 1, nl + bs.length, x) := by
  intro bs
  induction bs with
  | nil =>
    intro fuel lines i nl x rest hdrop hb hx hfuel
    cases fuel with
    | zero => omega
    | succ f =>
      simp only [scanFuel]
      have hg : lines[i]? = some x := by
        have h0 : (lines.drop i)[0]? = some x := by rw [hdrop]; simp
        rw [List.getElem?_drop] at h0
        simpa using h0
      rw [hg]
      show (if x = [] then scanFuel f lines (i + 1) (nl + 1) else some (i + 1, nl, x)) =
        some (i + [].length + 1, nl + [].length, x)
      rw [if_neg hx]
      simp
  | cons b bs2 ih =>
    intro fuel lines i nl x rest hdrop hb hx hfuel
    cases fuel with
    | zero => simp only [List.length_cons] at hfuel; omega
    | succ f =>
      simp only [scanFuel]
      have hg : lines[i]? = some b := by
        have h0 : (lines.drop i)[0]? = some b := by rw [hdrop]; simp
        rw [List.getElem?_drop] at h0
        simpa using h0
      rw [hg]
      have hbb : b = [] := hb b (List.mem_cons_self _ _)
      show (if b = [] then scanFuel f lines (i + 1) (nl + 1) else some (i + 1, nl, b)) =
        some (i + (b :: bs2).length + 1, nl + (b :: bs2).length, x)
      rw [if_pos hbb]
      have hdrop2 : lines.drop (i + 1) = bs2 ++ x :: rest := by
        rw [← List.tail_drop, hdrop]
        rfl
      have hfuel2 : bs2.length + 1 ≤ f := by
        simp only [List.length_cons] at hfuel
        omega
      rw [ih f lines (i + 1) (nl + 1) x rest hdrop2
        (fun l hl => hb l (List.mem_cons_of_mem _ hl)) hx hfuel2]
      simp only [List.length_cons]
      have e1 : i + 1 + bs2.length + 1 = i + (bs2.length + 1) + 1 := by omega
      have e2 : nl + 1 + bs2.length = nl + (bs2.length + 1) := by omega
      rw [e1, e2]

lemma scan_all_blank (lines : List (List Char)) (i nl : Nat)
    (h : ∀ l ∈ lines.drop i, l = []) : scan lines i nl = none :=
  scanFuel_all_blank _ lines i nl h

lemma scan_found (lines : List (List Char)) (i nl : Nat) (bs : List (List Char))
    (x : List Char) (rest : List (List Char))
    (hdrop : lines.drop i = bs ++ x :: rest) (hb : ∀ l ∈ bs, l = []) (hx : x ≠ []) :
    scan lines i nl = some (i + bs.length + 1, nl + bs.length, x) := by
  apply scanFuel_found bs _ lines i nl x rest hdrop hb hx
  have hlen : (lines.drop i).length = lines.length - i := List.length_drop i lines
  rw [hdrop] at hlen
  simp only [List.length_append, List.length_cons] at hlen
  omega

/-! ### Claim C4 -/

/-- C4: for every input line list and cursor, one readline call either
returns end of stream (with the reader unchanged) when only blank lines
remain, or, when one or more blank lines precede the next non-blank line,
emits exactly one blank line and leaves the cursor on that non-blank line
so the following call returns it, or returns a leading non-blank line
directly, advancing past it. -/
theorem c4_readline (r : Reader) :
    ((∀ l ∈ r.lines.drop r.idx, l = []) → r.readline = (none, r)) ∧
    (∀ bs x rest, r.lines.drop r.idx = bs ++ x :: rest → (∀ l ∈ bs, l = []) → x ≠ [] →
      (bs = [] → r.readline = (some x, ⟨r.lines, r.idx + 1⟩)) ∧
      (bs ≠ [] →
        r.readline = (some ['\n'], ⟨r.lines, r.idx + bs.length⟩) ∧
        Reader.readline ⟨r.lines, r.idx + bs.length⟩ =
          (some x, ⟨r.lines, r.idx + bs.length + 1⟩))) := by
  obtain ⟨lines, idx⟩ := r
  constructor
  · intro h
    unfold Reader.readline
    rw [scan_all_blank lines idx 0 h]
  · intro bs x rest hdrop hb hx
    have hdrop2 : lines.drop (idx + bs.length) = x :: rest := by
      have h1 : (lines.drop idx).drop bs.length = x :: rest := by
        rw [hdrop]
        exact List.drop_left bs (x :: rest)
      rw [List.drop_drop] at h1
      exact h1
    constructor
    · intro hbs
      subst hbs
      unfold Reader.readline
      rw [scan_found lines idx 0 [] x rest hdrop hb hx]
      simp
    · intro hbs
      have hblen : bs.length ≠ 0 := fun e => hbs (List.length_eq_zero.1 e)
      constructor
      · unfold Reader.readline
        rw [scan_found lines idx 0 bs x rest hdrop hb hx]
        simp only [Nat.zero_add]
        rw [if_neg hblen]
        simp [Nat.add_sub_cancel]
      · unfold Reader.readline
        rw [scan_found lines (idx + bs.length) 0 [] x rest hdrop2
          (by intro l hl; cases hl) hx]
        simp

theorem c4_readline_witness :
    Reader.readline ⟨[[], [], ['a']], 0⟩ = (some ['\n'], ⟨[[], [], ['a']], 2⟩) ∧
    Reader.readline ⟨[[], [], ['a']], 2⟩ = (some ['a'], ⟨[[], [], ['a']], 3⟩) := by
  have h := (c4_readline ⟨[[], [], ['a']], 0⟩).2 [[], []] ['a'] []
    (by decide) (by decide) (by decide)
  have h2 := h.2 (by decide)
  exact ⟨h2.1, h2.2⟩

/-! ### Serialization lemmas: joinLines and splitNl -/

lemma joinLines_append (a b : List (List Char)) :
    joinLines (a ++ b) = joinLines a ++ joinLines b := by
  induction a with
  | nil => rfl
  | cons l rest ih =>
    simp only [List.cons_append, joinLines, List.append_eq]
    rw [ih]
    simp [List.append_assoc]

lemma fileHeader_eq : FILE_HEADER.data = joinLines headerLines := by decide

lemma save_eq_joinLines (p : ConfigParser) :
    RepoFile.save false p = joinLines (headerLines ++ writeLines p) ∧
    RepoFile.save true p = joinLines (writeLines p) := by
  constructor
  · unfold RepoFile.save
    rw [if_neg (by simp), fileHeader_eq, joinLines_append]
  · unfold RepoFile.save
    rw [if_pos rfl, List.nil_append]

lemma splitNl_ne_nil (cs : List Char) : splitNl cs ≠ [] := by
  cases cs with
  | nil => simp [splitNl]
  | cons c cs2 =>
    simp only [splitNl]
    by_cases hc : c = '\n'
    · rw [if_pos hc]
      simp
    · rw [if_neg hc]
      cases h : splitNl cs2 <;> simp

lemma splitNl_line (l : List Char) (cs : List Char) (h : '\n' ∉ l) :
    splitNl (l ++ '\n' :: cs) = l :: splitNl cs := by
  induction l with
  | nil =>
    simp [List.nil_append, splitNl]
  | cons c l2 ih =>
    simp only [List.mem_cons, not_or] at h
    have hc : c ≠ '\n' := fun e => h.1 e.symm
    simp only [List.cons_append, splitNl, if_neg hc, List.append_eq]
    rw [ih h.2]

lemma splitNl_joinLines (ls : List (List Char)) (h : ∀ l ∈ ls, '\n' ∉ l) :
    splitNl (joinLines ls) = ls ++ [[]] := by
  induction ls with
  | nil => rfl
  | cons l rest ih =>
    simp only [joinLines]
    rw [splitNl_line l _ (h l (List.mem_cons_self _ _))]
    rw [ih (fun l2 h2 => h l2 (List.mem_cons_of_mem _ h2))]
    rfl

/-! ### Collapse: the specification of the Reader output stream -/

lemma dropWhile_head_false {α : Type} (p : α → Bool) :
    ∀ (l : List α) (x : α) (xs : List α), l.dropWhile p = x :: xs → p x = false := by
  intro l
  induction l with
  | nil => intro x xs h; cases h
  | cons a l2 ih =>
    intro x xs h
    rw [List.dropWhile_cons] at h
    by_cases hp : p a
    · rw [if_pos hp] at h
      exact ih x xs h
    · rw [if_neg hp] at h
      injection h with h1 h2
      subst h1
      simpa using hp

lemma collapseFuel_all_blank :
    ∀ (f : Nat) (ls : List (List Char)), (∀ l ∈ ls, l = []) → collapseFuel f ls = [] := by
  intro f
  induction f with
  | zero => intro ls _; cases ls <;> rfl
  | succ f2 ih =>
    intro ls h
    cases ls with
    | nil => rfl
    | cons l ls2 =>
      have hl : l = [] := h l (List.mem_cons_self _ _)
      simp only [collapseFuel, if_pos hl]
      have hdw : ls2.dropWhile (fun x => x == []) = [] := by
        rw [List.dropWhile_eq_nil_iff]
        intro x hx
        simp [h x (List.mem_cons_of_mem _ hx)]
      rw [hdw]

lemma collapse_all_blank (ls : List (List Char)) (h : ∀ l ∈ ls, l = []) :
    collapse ls = [] :=
  collapseFuel_all_blank _ ls h

lemma collapse_cons_nonblank (x : List Char) (xs : List (List Char)) (hx : x ≠ []) :
    collapse (x :: xs) = x :: collapse xs := by
  unfold collapse
  simp only [List.length_cons, collapseFuel, if_neg hx]

lemma collapseFuel_congr :
    ∀ (f1 f2 : Nat) (ls : List (List Char)), ls.length ≤ f1 → ls.length ≤ f2 →
      collapseFuel f1 ls = collapseFuel f2 ls := by
  intro f1
  induction f1 using Nat.strong_induction_on with
  | _ f1 ih =>
    intro f2 ls h1 h2
    cases ls with
    | nil => cases f1 <;> cases f2 <;> rfl
    | cons l ls2 =>
      simp only [List.length_cons] at h1 h2
      cases f1 with
      | zero => omega
      | succ fa =>
        cases f2 with
        | zero => omega
        | succ fb =>
          simp only [collapseFuel]
          by_cases hl : l = []
          · rw [if_pos hl, if_pos hl]
            cases hdw : ls2.dropWhile (fun x => x == []) with
            | nil => rfl
            | cons x xs =>
              have hsub : (ls2.dropWhile (fun x => x == [])).length ≤ ls2.length :=
                (List.dropWhile_sublist _).length_le
              rw [hdw] at hsub
              simp only [List.length_cons] at hsub
              show ['\n'] :: x :: collapseFuel fa xs = ['\n'] :: x :: collapseFuel fb xs
              rw [ih fa (by omega) fb xs (by omega) (by omega)]
          · rw [if_neg hl, if_neg hl]
            rw [ih fa (by omega) fb ls2 (by omega) (by omega)]

lemma collapseFuel_eq (f : Nat) (ls : List (List Char)) (h : ls.length ≤ f) :
    collapseFuel f ls = collapse ls :=
  collapseFuel_congr f ls.length ls h le_rfl

lemma dropWhile_blanks_eq :
    ∀ (bs : List (List Char)) (x : List Char) (xs : List (List Char)),
      (∀ l ∈ bs, l = []) → x ≠ [] →
      (bs ++ x :: xs).dropWhile (fun l => l == []) = x :: xs := by
  intro bs
  induction bs with
  | nil =>
    intro x xs _ hx
    simp only [List.nil_append, List.dropWhile_cons]
    rw [if_neg (by simpa using hx)]
  | cons b bs2 ih =>
    intro x xs hb hx
    have hbb : b = [] := hb b (List.mem_cons_self _ _)
    simp only [List.cons_append, List.dropWhile_cons]
    rw [if_pos (by simp [hbb])]
    exact ih x xs (fun l hl => hb l (List.mem_cons_of_mem _ hl)) hx

lemma collapse_blank_run (bs : List (List Char)) (x : List Char) (xs : List (List Char))
    (hbs : bs ≠ []) (hb : ∀ l ∈ bs, l = []) (hx : x ≠ []) :
    collapse (bs ++ x :: xs) = ['\n'] :: x :: collapse xs := by
  cases bs with
  | nil => cases hbs rfl
  | cons b bs2 =>
    have hbb : b = [] := hb b (List.mem_cons_self _ _)
    unfold collapse
    simp only [List.cons_append, List.length_cons, collapseFuel, if_pos hbb, List.append_eq]
    rw [dropWhile_blanks_eq bs2 x xs (fun l hl => hb l (List.mem_cons_of_mem _ hl)) hx]
    show ['\n'] :: x :: collapseFuel (bs2 ++ x :: xs).length xs = _
    rw [collapseFuel_eq _ xs (by simp [List.length_append]; omega)]
    rfl

/-! ### Reader.readline specification helpers -/

lemma readline_none (lines : List (List Char)) (idx : Nat)
    (h : ∀ l ∈ lines.drop idx, l = []) :
    Reader.readline ⟨lines, idx⟩ = (none, ⟨lines, idx⟩) := by
  unfold Reader.readline
  rw [scan_all_blank lines idx 0 h]

lemma readline_direct (lines : List (List Char)) (idx : Nat) (x : List Char)
    (rest : List (List Char)) (hdrop : lines.drop idx = x :: rest) (hx : x ≠ []) :
    Reader.readline ⟨lines, idx⟩ = (some x, ⟨lines, idx + 1⟩) := by
  unfold Reader.readline
  rw [scan_found lines idx 0 [] x rest (by simpa using hdrop) (by intro l hl; cases hl) hx]
  simp

lemma readline_blanks (lines : List (List Char)) (idx : Nat) (bs : List (List Char))
    (x : List Char) (rest : List (List Char)) (hdrop : lines.drop idx = bs ++ x :: rest)
    (hb : ∀ l ∈ bs, l = []) (hbs : bs ≠ []) (hx : x ≠ []) :
    Reader.readline ⟨lines, idx⟩ = (some ['\n'], ⟨lines, idx + bs.length⟩) := by
  unfold Reader.readline
  rw [scan_found lines idx 0 bs x rest hdrop hb hx]
  have hblen : bs.length ≠ 0 := fun e => hbs (List.length_eq_zero.1 e)
  simp only [Nat.zero_add]
  rw [if_neg hblen]
  simp [Nat.add_sub_cancel]

/-! ### readAll drains the reader into the collapsed line stream -/

lemma readerAllFuel_eq :
    ∀ (fuel : Nat) (lines : List (List Char)) (idx : Nat),
      lines.length + 1 - idx ≤ fuel →
      readerAllFuel fuel ⟨lines, idx⟩ = collapse (lines.drop idx) := by
  intro fuel
  induction fuel with
  | zero =>
    intro lines idx h
    have hge : lines.length ≤ idx := by omega
    rw [List.drop_eq_nil_of_le hge]
    rfl
  | succ f ih =>
    intro lines idx h
    cases hdw : (lines.drop idx).dropWhile (fun l => l == []) with
    | nil =>
      have hall : ∀ l ∈ lines.drop idx, l = [] := by
        intro l hl
        have h2 := List.dropWhile_eq_nil_iff.1 hdw l hl
        simpa using h2
      simp only [readerAllFuel]
      rw [readline_none lines idx hall, collapse_all_blank _ hall]
    | cons x xs =>
      have hsplit : lines.drop idx =
          (lines.drop idx).takeWhile (fun l => l == []) ++ x :: xs := by
        conv_lhs => rw [← List.takeWhile_append_dropWhile
          (p := fun l => l == []) (l := lines.drop idx)]
        rw [hdw]
      have hbl : ∀ l ∈ (lines.drop idx).takeWhile (fun l => l == []), l = [] := by
        intro l hl
        have h2 := List.mem_takeWhile_imp hl
        simpa using h2
      have hx : x ≠ [] := by
        have h2 := dropWhile_head_false _ _ x xs hdw
        simpa using h2
      generalize hgen : (lines.drop idx).takeWhile (fun l => l == []) = bs at hsplit hbl
      have hdl : (lines.drop idx).length = lines.length - idx := List.length_drop idx lines
      rw [hsplit] at hdl
      simp only [List.length_append, List.length_cons] at hdl
      cases hbsc : bs with
      | nil =>
        subst hbsc
        simp only [List.nil_append] at hsplit
        simp only [List.length_nil, Nat.zero_add] at hdl
        simp only [readerAllFuel]
        rw [readline_direct lines idx x xs hsplit hx]
        have hdrop1 : lines.drop (idx + 1) = xs := by
          rw [← List.tail_drop, hsplit]
          rfl
        show x :: readerAllFuel f ⟨lines, idx + 1⟩ = collapse (lines.drop idx)
        rw [ih lines (idx + 1) (by omega), hdrop1, hsplit,
          collapse_cons_nonblank x xs hx]
      | cons b bs2 =>
        have hbsne : bs ≠ [] := by rw [hbsc]; simp
        simp only [readerAllFuel]
        rw [readline_blanks lines idx bs x xs hsplit hbl hbsne hx]
        have hbslen : 1 ≤ bs.length := by rw [hbsc]; simp
        have hdrop2 : lines.drop (idx + bs.length) = x :: xs := by
          have h1 : (lines.drop idx).drop bs.length = x :: xs := by
            rw [hsplit]
            exact List.drop_left bs (x :: xs)
          rw [List.drop_drop] at h1
          exact h1
        show ['\n'] :: readerAllFuel f ⟨lines, idx + bs.length⟩ = collapse (lines.drop idx)
        rw [ih lines (idx + bs.length) (by omega), hdrop2,
          collapse_cons_nonblank x xs hx, hsplit,
          collapse_blank_run bs x xs hbsne hbl hx]

lemma readAll_eq (lines : List (List Char)) (idx : Nat) :
    Reader.readAll ⟨lines, idx⟩ = collapse (lines.drop idx) :=
  readerAllFuel_eq _ lines idx le_rfl

/-! ### Parsing lemmas -/

lemma contains_false (l : List Char) (a : Char) (h : l.contains a = false) : a ∉ l := by
  intro hm
  simp at h
  exact h hm

lemma wfKey_spec (k : String) (h : wfKey k = true) :
    (∀ c ∈ k.data, c ≠ ' ') ∧ '\n' ∉ k.data ∧
      k.data.head? ≠ some '#' ∧ k.data.head? ≠ some '[' := by
  simp only [wfKey, Bool.and_eq_true, Bool.not_eq_true', bne_iff_ne, ne_eq] at h
  obtain ⟨⟨⟨h1, h2⟩, h3⟩, h4⟩ := h
  refine ⟨?_, contains_false _ _ h2, h3, h4⟩
  intro c hc he
  subst he
  exact contains_false _ _ h1 hc

lemma wfName_spec (n : String) (h : wfName n = true) : '\n' ∉ n.data := by
  simp only [wfName, Bool.not_eq_true'] at h
  exact contains_false _ _ h

lemma wfValue_spec (v : String) (h : wfValue v = true) : '\n' ∉ v.data := by
  simp only [wfValue, Bool.not_eq_true'] at h
  exact contains_false _ _ h

lemma keep_eq_false_iff (l : List Char) :
    keep l = false ↔ (l = [] ∨ l = ['\n'] ∨ l.head? = some '#') := by
  simp [keep]
  tauto

lemma parseLine_skip (st : PState) (l : List Char) (h : keep l = false) :
    parseLine st l = .ok st := by
  rcases (keep_eq_false_iff l).1 h with h2 | h2 | h2
  · unfold parseLine
    rw [if_pos (Or.inl h2)]
  · unfold parseLine
    rw [if_pos (Or.inr h2)]
  · unfold parseLine
    by_cases h3 : l = [] ∨ l = ['\n']
    · rw [if_pos h3]
    · rw [if_neg h3, if_pos h2]

lemma parseLines_append (a b : List (List Char)) (st : PState) :
    parseLines st (a ++ b) =
      match parseLines st a with
      | .ok st2 => parseLines st2 b
      | .error e => .error e := by
  induction a generalizing st with
  | nil => rfl
  | cons l a2 ih =>
    simp only [List.cons_append, parseLines]
    cases parseLine st l with
    | ok st2 => exact ih st2
    | error e => rfl

lemma parseLines_filter (ls : List (List Char)) :
    ∀ st, parseLines st ls = parseLines st (ls.filter keep) := by
  induction ls with
  | nil => intro st; rfl
  | cons l ls2 ih =>
    intro st
    rw [List.filter_cons]
    cases hk : keep l with
    | false =>
      simp only [Bool.false_eq_true, if_false]
      simp only [parseLines, parseLine_skip st l hk]
      exact ih st
    | true =>
      simp only [if_pos rfl]
      simp only [parseLines]
      cases parseLine st l with
      | ok st2 => exact ih st2
      | error e => rfl

lemma filter_keep_blanks (bs : List (List Char)) (h : ∀ l ∈ bs, l = []) :
    bs.filter keep = [] := by
  induction bs with
  | nil => rfl
  | cons b bs2 ih =>
    rw [List.filter_cons]
    have hb : b = [] := h b (List.mem_cons_self _ _)
    have hk : keep b = false := by rw [hb]; decide
    rw [hk]
    simp only [Bool.false_eq_true, if_false]
    exact ih (fun l hl => h l (List.mem_cons_of_mem _ hl))

lemma collapseFuel_filter :
    ∀ (f : Nat) (ls : List (List Char)), ls.length ≤ f →
      (collapseFuel f ls).filter keep = ls.filter keep := by
  intro f
  induction f with
  | zero =>
    intro ls h
    have : ls = [] := List.length_eq_zero.1 (by omega)
    subst this
    rfl
  | succ f2 ih =>
    intro ls h
    cases ls with
    | nil => rfl
    | cons l ls2 =>
      simp only [List.length_cons] at h
      by_cases hl : l = []
      · simp only [collapseFuel, if_pos hl]
        cases hdw : ls2.dropWhile (fun x => x == []) with
        | nil =>
          have hall2 : ∀ x ∈ ls2, x = [] := by
            intro x hx
            simpa using List.dropWhile_eq_nil_iff.1 hdw x hx
          have hall : ∀ x ∈ l :: ls2, x = [] := by
            intro x hx
            rcases List.mem_cons.1 hx with h2 | h2
            · rw [h2, hl]
            · exact hall2 x h2
          rw [filter_keep_blanks _ hall]
          rfl
        | cons x xs =>
          have hsplit : ls2 = ls2.takeWhile (fun l => l == []) ++ x :: xs := by
            conv_lhs => rw [← List.takeWhile_append_dropWhile
              (p := fun l => l == []) (l := ls2)]
            rw [hdw]
          have hbl : ∀ l2 ∈ ls2.takeWhile (fun l => l == []), l2 = [] := by
            intro l2 hl2
            simpa using List.mem_takeWhile_imp hl2
          have hsub : (ls2.dropWhile (fun x => x == [])).length ≤ ls2.length :=
            (List.dropWhile_sublist _).length_le
          rw [hdw] at hsub
          simp only [List.length_cons] at hsub
          show (['\n'] :: x :: collapseFuel f2 xs).filter keep = (l :: ls2).filter keep
          rw [List.filter_cons, List.filter_cons, List.filter_cons]
          have hknl : keep ['\n'] = false := by decide
          have hkl : keep l = false := by rw [hl]; decide
          rw [hknl, hkl]
          simp only [Bool.false_eq_true, if_false]
          conv_rhs => rw [hsplit]
          rw [List.filter_append, filter_keep_blanks _ hbl, List.nil_append,
            List.filter_cons]
          rw [ih xs (by omega)]
      · simp only [collapseFuel, if_neg hl]
        rw [List.filter_cons, List.filter_cons]
        rw [ih ls2 (by omega)]

lemma collapse_filter (ls : List (List Char)) :
    (collapse ls).filter keep = ls.filter keep :=
  collapseFuel_filter ls.length ls le_rfl

lemma parseLine_header (st : PState) (n : String) :
    parseLine st (sectionLineChars n) = .ok { done := flushCur st, cur := some (n, []) } := by
  have h1 : ¬(sectionLineChars n = [] ∨ sectionLineChars n = ['\n']) := by
    rintro (h | h)
    · simp [sectionLineChars] at h
    · have h2 := congrArg List.length h
      simp [sectionLineChars, List.length_append] at h2
  have h2 : ¬(sectionLineChars n).head? = some '#' := by
    simp [sectionLineChars]
  have h3 : (sectionLineChars n).head? = some '[' := rfl
  have h4 : (sectionLineChars n).tail.getLast? = some ']' :=
    List.getLast?_concat _
  have h5 : String.mk (sectionLineChars n).tail.dropLast = n := by
    show String.mk (n.data ++ [']']).dropLast = n
    rw [List.dropLast_concat, stringMk_data]
  unfold parseLine
  rw [if_neg h1, if_neg h2, if_pos h3, if_pos h4, h5]

lemma splitSep_boundary :
    ∀ (k v : List Char), (∀ c ∈ k, c ≠ ' ') →
      splitSep (k ++ ' ' :: '=' :: ' ' :: v) = some (k, v) := by
  intro k
  induction k with
  | nil =>
    intro v _
    show splitSep (' ' :: '=' :: ' ' :: v) = some ([], v)
    unfold splitSep
    rw [if_pos ⟨rfl, rfl⟩]
    rfl
  | cons c k2 ih =>
    intro v h
    have hc : c ≠ ' ' := h c (List.mem_cons_self _ _)
    show splitSep (c :: (k2 ++ ' ' :: '=' :: ' ' :: v)) = some (c :: k2, v)
    unfold splitSep
    rw [if_neg (fun hand => hc hand.1)]
    rw [ih v (fun c2 h2 => h c2 (List.mem_cons_of_mem _ h2))]

lemma pairLine_facts (kv : String × String) (hk : wfKey kv.1 = true) :
    ¬(pairLineChars kv = [] ∨ pairLineChars kv = ['\n']) ∧
    (pairLineChars kv).head? ≠ some '#' ∧
    (pairLineChars kv).head? ≠ some '[' := by
  obtain ⟨hsp, hnl, hhash, hbr⟩ := wfKey_spec kv.1 hk
  refine ⟨?_, ?_, ?_⟩
  · rintro (h | h)
    · simp [pairLineChars, List.append_eq_nil] at h
    · have h2 := congrArg List.length h
      simp [pairLineChars, List.length_append] at h2
      omega
  · cases hd : kv.1.data with
    | nil => simp [pairLineChars, hd]
    | cons c cs =>
      rw [hd] at hhash
      simp only [List.head?_cons, ne_eq, Option.some.injEq] at hhash
      simp [pairLineChars, hd, hhash]
  · cases hd : kv.1.data with
    | nil => simp [pairLineChars, hd]
    | cons c cs =>
      rw [hd] at hbr
      simp only [List.head?_cons, ne_eq, Option.some.injEq] at hbr
      simp [pairLineChars, hd, hbr]

lemma parseLine_pair (d : List (String × List (String × String)))
    (sec : String × List (String × String)) (kv : String × String)
    (hk : wfKey kv.1 = true) :
    parseLine ⟨d, some sec⟩ (pairLineChars kv) =
      .ok ⟨d, some (sec.1, aset sec.2 kv.1 kv.2)⟩ := by
  obtain ⟨h1, h2, h3⟩ := pairLine_facts kv hk
  have hsp : ∀ c ∈ kv.1.data, c ≠ ' ' := (wfKey_spec kv.1 hk).1
  have h4 : splitSep (pairLineChars kv) = some (kv.1.data, kv.2.data) :=
    splitSep_boundary kv.1.data kv.2.data hsp
  unfold parseLine
  rw [if_neg h1, if_neg h2, if_neg h3, h4]

lemma parseLines_pairs :
    ∀ (ps : List (String × String)) (d : List (String × List (String × String)))
      (sec : String × List (String × String)),
      (∀ kv ∈ ps, wfKey kv.1 = true) →
      parseLines ⟨d, some sec⟩ (ps.map pairLineChars) =
        .ok ⟨d, some (sec.1, ps.foldl (fun a kv => aset a kv.1 kv.2) sec.2)⟩ := by
  intro ps
  induction ps with
  | nil => intro d sec _; rfl
  | cons kv ps2 ih =>
    intro d sec h
    simp only [List.map_cons, parseLines]
    rw [parseLine_pair d sec kv (h kv (List.mem_cons_self _ _))]
    show parseLines ⟨d, some (sec.1, aset sec.2 kv.1 kv.2)⟩ (ps2.map pairLineChars) = _
    rw [ih d (sec.1, aset sec.2 kv.1 kv.2) (fun kv2 h2 => h kv2 (List.mem_cons_of_mem _ h2))]
    rfl

lemma keep_sectionLine (n : String) : keep (sectionLineChars n) = true := by
  cases hk : keep (sectionLineChars n) with
  | true => rfl
  | false =>
    exfalso
    rcases (keep_eq_false_iff _).1 hk with h | h | h
    · simp [sectionLineChars] at h
    · have h2 := congrArg List.length h
      simp [sectionLineChars, List.length_append] at h2
    · simp [sectionLineChars] at h

lemma keep_pairLine (kv : String × String) (hk : wfKey kv.1 = true) :
    keep (pairLineChars kv) = true := by
  obtain ⟨h1, h2, h3⟩ := pairLine_facts kv hk
  cases hke : keep (pairLineChars kv) with
  | true => rfl
  | false =>
    exfalso
    rcases (keep_eq_false_iff _).1 hke with h | h | h
    · exact h1 (Or.inl h)
    · exact h1 (Or.inr h)
    · exact h2 h

lemma filter_keep_sectionLines (s : String × List (String × String))
    (hkeys : ∀ kv ∈ s.2, wfKey kv.1 = true) :
    (sectionLines s).filter keep = sectionLineChars s.1 :: s.2.map pairLineChars := by
  unfold sectionLines
  rw [List.filter_append]
  have h2 : ([[]] : List (List Char)).filter keep = [] := by decide
  rw [h2, List.append_nil]
  rw [List.filter_cons, keep_sectionLine, if_pos rfl]
  have h1 : (s.2.map pairLineChars).filter keep = s.2.map pairLineChars := by
    apply List.filter_eq_self.2
    intro l hl
    rcases List.mem_map.1 hl with ⟨kv, hkv, he⟩
    rw [← he]
    exact keep_pairLine kv (hkeys kv hkv)
  rw [h1]

lemma foldl_aset_fresh :
    ∀ (ps : List (String × String)) (d : List (String × String)),
      (∀ kv ∈ ps, alookup d kv.1 = none) → (ps.map Prod.fst).Nodup →
      ps.foldl (fun a kv => aset a kv.1 kv.2) d = d ++ ps := by
  intro ps
  induction ps with
  | nil => intro d _ _; simp
  | cons kv ps2 ih =>
    intro d hfresh hnd
    simp only [List.map_cons, List.nodup_cons] at hnd
    simp only [List.foldl_cons]
    rw [aset_fresh d kv.1 kv.2 (hfresh kv (List.mem_cons_self _ _))]
    have hfresh2 : ∀ kv2 ∈ ps2, alookup (d ++ [(kv.1, kv.2)]) kv2.1 = none := by
      intro kv2 h2
      rw [alookup_append]
      rw [hfresh kv2 (List.mem_cons_of_mem _ h2)]
      have hne : kv.1 ≠ kv2.1 := by
        intro e
        exact hnd.1 (e ▸ List.mem_map_of_mem Prod.fst h2)
      simp [alookup, hne]
    rw [ih (d ++ [(kv.1, kv.2)]) hfresh2 hnd.2]
    simp [List.append_assoc]

lemma parseLines_sections :
    ∀ (secs : List (String × List (String × String))) (st : PState),
      (∀ s ∈ secs, wfSection s) →
      ∃ stF, parseLines st (((secs.map sectionLines).flatten).filter keep) = .ok stF ∧
        flushCur stF = flushCur st ++ secs := by
  intro secs
  induction secs with
  | nil => intro st _; exact ⟨st, rfl, by simp⟩
  | cons s rest ih =>
    intro st hwf
    obtain ⟨hname, hpairs, hnd⟩ := hwf s (List.mem_cons_self _ _)
    simp only [List.map_cons, List.flatten_cons]
    rw [List.filter_append]
    rw [filter_keep_sectionLines s (fun kv hkv => (hpairs kv hkv).1)]
    rw [parseLines_append]
    have hinner : parseLines st (sectionLineChars s.1 :: s.2.map pairLineChars) =
        .ok ⟨flushCur st, some (s.1, s.2)⟩ := by
      simp only [parseLines]
      rw [parseLine_header st s.1]
      show parseLines ⟨flushCur st, some (s.1, [])⟩ (s.2.map pairLineChars) = _
      rw [parseLines_pairs s.2 (flushCur st) (s.1, []) (fun kv hkv => (hpairs kv hkv).1)]
      rw [foldl_aset_fresh s.2 [] (fun kv _ => rfl) hnd]
      rfl
    rw [hinner]
    show ∃ stF,
      parseLines ⟨flushCur st, some (s.1, s.2)⟩ (((rest.map sectionLines).flatten).filter keep)
        = .ok stF ∧ _
    obtain ⟨stF, hF, hflush⟩ :=
      ih ⟨flushCur st, some (s.1, s.2)⟩ (fun s2 h2 => hwf s2 (List.mem_cons_of_mem _ h2))
    refine ⟨stF, hF, ?_⟩
    rw [hflush]
    show (flushCur st ++ [(s.1, s.2)]) ++ rest = flushCur st ++ s :: rest
    simp [List.append_assoc]

lemma mem_writeLines (p : ConfigParser) (l : List Char) (h : l ∈ writeLines p) :
    (∃ s ∈ p.sections, l = sectionLineChars s.1) ∨
    (∃ s ∈ p.sections, ∃ kv ∈ s.2, l = pairLineChars kv) ∨ l = [] := by
  unfold writeLines at h
  rcases List.mem_flatten.1 h with ⟨bl, hbl, hl⟩
  rcases List.mem_map.1 hbl with ⟨s, hs, he⟩
  rw [← he] at hl
  unfold sectionLines at hl
  rcases List.mem_cons.1 hl with h2 | h2
  · exact Or.inl ⟨s, hs, h2⟩
  · rcases List.mem_append.1 h2 with h3 | h3
    · rcases List.mem_map.1 h3 with ⟨kv, hkv, he2⟩
      exact Or.inr (Or.inl ⟨s, hs, kv, hkv, he2.symm⟩)
    · simp only [List.mem_singleton] at h3
      exact Or.inr (Or.inr h3)

lemma writeLines_no_nl (p : ConfigParser) (hwf : wfParser p) :
    ∀ l ∈ writeLines p, '\n' ∉ l := by
  intro l hl hmem
  rcases mem_writeLines p l hl with ⟨s, hs, he⟩ | ⟨s, hs, kv, hkv, he⟩ | he
  · subst he
    have hnn := wfName_spec s.1 (hwf.1 s hs).1
    simp only [sectionLineChars, List.mem_cons, List.mem_append,
      List.mem_singleton] at hmem
    rcases hmem with (h | h) | h
    · exact absurd h (by decide)
    · exact hnn h
    · exact absurd h (by decide)
  · subst he
    have hp := (hwf.1 s hs).2.1 kv hkv
    have hk := (wfKey_spec kv.1 hp.1).2.1
    have hv := wfValue_spec kv.2 hp.2
    simp only [pairLineChars, List.mem_append, List.mem_cons] at hmem
    rcases hmem with h | h
    · exact hk h
    · rcases h with h | h | h | h
      · exact absurd h (by decide)
      · exact absurd h (by decide)
      · exact absurd h (by decide)
      · exact hv h
  · subst he
    cases hmem

lemma headerLines_no_nl : ∀ l ∈ headerLines, '\n' ∉ l := by decide

lemma load_save (p : ConfigParser) (hwf : wfParser p) :
    RepoFile.load (RepoFile.save false p) = .ok p := by
  have hnl : ∀ l ∈ headerLines ++ writeLines p, '\n' ∉ l := by
    intro l hl
    rcases List.mem_append.1 hl with h | h
    · exact headerLines_no_nl l h
    · exact writeLines_no_nl p hwf l h
  obtain ⟨stF, hF, hflush⟩ := parseLines_sections p.sections ⟨[], none⟩ hwf.1
  have hra : (Reader.ofContent (RepoFile.save false p)).readAll =
      collapse ((headerLines ++ writeLines p) ++ [[]]) := by
    unfold Reader.ofContent
    rw [(save_eq_joinLines p).1, splitNl_joinLines _ hnl, readAll_eq, List.drop_zero]
  have hparse :
      parseLines ⟨[], none⟩ (collapse ((headerLines ++ writeLines p) ++ [[]])) = .ok stF := by
    rw [parseLines_filter, collapse_filter]
    have hfilter : ((headerLines ++ writeLines p) ++ [[]]).filter keep =
        (writeLines p).filter keep := by
      rw [List.filter_append, List.filter_append]
      have hh : headerLines.filter keep = [] := by decide
      have he2 : ([[]] : List (List Char)).filter keep = [] := by decide
      rw [hh, he2, List.nil_append, List.append_nil]
    rw [hfilter]
    exact hF
  unfold RepoFile.load
  rw [hra, hparse]
  show Except.ok (⟨flushCur stF⟩ : ConfigParser) = .ok p
  rw [hflush]
  rfl

/-! ### add_repo and bulk population lemmas -/

lemma addRepo_ok (p : ConfigParser) (r : Repo) (h : p.hasSection r.id = false) :
    addRepo p r = .ok ⟨p.sections ++ [(r.id, sectionPairs r)]⟩ := by
  have hnone : alookup p.sections r.id = none := by
    unfold ConfigParser.hasSection at h
    cases hlk : alookup p.sections r.id with
    | none => rfl
    | some v => rw [hlk] at h; cases h
  unfold addRepo ConfigParser.addSection
  rw [if_neg (by simp [h])]
  show repoToParser ⟨p.sections ++ [(r.id, [])]⟩ r = _
  unfold repoToParser
  have hs2 : ConfigParser.hasSection ⟨p.sections ++ [(r.id, [])]⟩ r.id = true := by
    unfold ConfigParser.hasSection
    rw [alookup_append, hnone]
    simp [alookup]
  rw [writeEntries_ok r.items _ r.id hs2]
  rw [updSection_fresh_append p.sections r.id [] _ hnone]
  rfl

lemma addAllFrom_ok :
    ∀ (repos : List Repo) (p : ConfigParser),
      ((p.sections.map Prod.fst) ++ repos.map Repo.id).Nodup →
      addAllFrom p repos =
        .ok ⟨p.sections ++ repos.map (fun r => (r.id, sectionPairs r))⟩ := by
  intro repos
  induction repos with
  | nil =>
    intro p _
    show Except.ok p = Except.ok (⟨p.sections ++ []⟩ : ConfigParser)
    rw [List.append_nil]
  | cons r rest ih =>
    intro p hnd
    have hdisj := (List.nodup_append.1 hnd).2.2
    have hfresh : p.hasSection r.id = false := by
      have hnotin : r.id ∉ p.sections.map Prod.fst := by
        intro hmem
        exact hdisj hmem (by simp)
      unfold ConfigParser.hasSection
      rw [alookup_eq_none_of_not_mem _ _ hnotin]
      rfl
    simp only [addAllFrom]
    rw [addRepo_ok p r hfresh]
    show addAllFrom ⟨p.sections ++ [(r.id, sectionPairs r)]⟩ rest = _
    have hnd2 : (((⟨p.sections ++ [(r.id, sectionPairs r)]⟩ :
        ConfigParser).sections.map Prod.fst) ++ rest.map Repo.id).Nodup := by
      show ((p.sections ++ [(r.id, sectionPairs r)]).map Prod.fst ++ rest.map Repo.id).Nodup
      rw [List.map_append]
      rw [List.append_assoc]
      simp only [List.map_cons, List.map_nil, List.singleton_append]
      simpa using hnd
    rw [ih _ hnd2]
    show Except.ok (⟨(p.sections ++ [(r.id, sectionPairs r)]) ++
      rest.map (fun r2 => (r2.id, sectionPairs r2))⟩ : ConfigParser) = _
    rw [List.append_assoc]
    rfl

lemma recognized_wfKey : ∀ k ∈ recognizedKeys, wfKey k = true := by decide

lemma sectionPairs_wf (r : Repo) (hwf : wfRepo r) :
    ∀ kv ∈ sectionPairs r, wfKey kv.1 = true ∧ wfValue kv.2 = true := by
  intro kv hkv
  unfold sectionPairs at hkv
  rcases mem_foldl_entApply r.items [] kv hkv with h | h
  · cases h
  · rcases h with ⟨item, hitem, s, hs, he⟩
    subst he
    constructor
    · exact recognized_wfKey item.1 (items_keys_recognized r item hitem)
    · have hov := items_values_wf r hwf item hitem
      rw [hs] at hov
      exact hov

lemma sectionPairs_keys_nodup (r : Repo) : ((sectionPairs r).map Prod.fst).Nodup :=
  keys_foldl_entApply_nodup r.items [] (by simp)

lemma addAll_sections (repos : List Repo) (hnd : (repos.map Repo.id).Nodup) :
    addAll repos = .ok ⟨repos.map (fun r => (r.id, sectionPairs r))⟩ := by
  unfold addAll
  rw [addAllFrom_ok repos ⟨[]⟩ (by simpa using hnd)]
  rfl

lemma addAll_wfParser (repos : List Repo) (hnd : (repos.map Repo.id).Nodup)
    (hwf : ∀ r ∈ repos, wfRepo r) :
    wfParser ⟨repos.map (fun r => (r.id, sectionPairs r))⟩ := by
  constructor
  · intro s hs
    rcases List.mem_map.1 hs with ⟨r, hr, he⟩
    subst he
    exact ⟨(hwf r hr).1, fun kv hkv => sectionPairs_wf r (hwf r hr) kv hkv,
      sectionPairs_keys_nodup r⟩
  · show ((repos.map (fun r => (r.id, sectionPairs r))).map Prod.fst).Nodup
    rw [List.map_map]
    exact hnd

lemma allRepos_map (p : ConfigParser) :
    allRepos p = p.sections.map (fun s => parserToRepo p s.1) := by
  unfold allRepos ConfigParser.sectionNames
  rw [List.map_map]
  rfl

/-! ### Claim C5 -/

/-- C5 counterexample: the claim promises identical key/value pairs for
every key set to a non-empty value.  A record carrying an extra key outside
the recognized set (the five declared properties plus baseurl and
mirrorlist) loses it across add_repo, save, load and all_repos, because
Repo.items never emits unrecognized keys. -/
theorem c5_counterexample :
    c5repo.get "custom_key" = some "custom_value" ∧
    addAll [c5repo] =
      .ok ⟨[("r1", [("enabled", "1"), ("sslverify", "0"), ("gpgcheck", "0")])]⟩ ∧
    RepoFile.load (RepoFile.save false
      ⟨[("r1", [("enabled", "1"), ("sslverify", "0"), ("gpgcheck", "0")])]⟩) =
      .ok ⟨[("r1", [("enabled", "1"), ("sslverify", "0"), ("gpgcheck", "0")])]⟩ ∧
    (allRepos ⟨[("r1", [("enabled", "1"), ("sslverify", "0"), ("gpgcheck", "0")])]⟩).map
      (fun rec => rec.get "custom_key") = [none] := by
  decide

/-- C5 amended: for every list of well formed records with distinct ids
(single-line ids and values, as required by the flat INI format),
populating a fresh RepoCollectionFile through add_repo, saving it to a
fresh file and loading it into a fresh instance restores the document
exactly, and all_repos yields as many records as were added, pairwise with
identical ids and with identical values for every recognized key (the five
declared properties, baseurl and mirrorlist) that was set to a non-empty
value; extra keys are not carried across. -/
theorem c5_roundtrip_amended (repos : List Repo)
    (hids : (repos.map Repo.id).Nodup)
    (hwf : ∀ r ∈ repos, wfRepo r) :
    ∃ p, addAll repos = .ok p ∧
      RepoFile.load (RepoFile.save false p) = .ok p ∧
      (allRepos p).length = repos.length ∧
      List.Forall₂ (fun r rec => rec.id = r.id ∧
        ∀ k v, k ∈ recognizedKeys → r.get k = some v → v ≠ "" → rec.get k = some v)
        repos (allRepos p) := by
  have hadd := addAll_sections repos hids
  have hwfp := addAll_wfParser repos hids hwf
  refine ⟨⟨repos.map (fun r => (r.id, sectionPairs r))⟩, hadd,
    load_save _ hwfp, ?_, ?_⟩
  · rw [allRepos_map]
    simp
  · rw [allRepos_map]
    show List.Forall₂ _ repos ((repos.map (fun r => (r.id, sectionPairs r))).map
      (fun s => parserToRepo ⟨repos.map (fun r => (r.id, sectionPairs r))⟩ s.1))
    rw [List.map_map]
    rw [List.forall₂_map_right_iff]
    rw [List.forall₂_same]
    intro r hr
    constructor
    · rfl
    · intro k v hk hv hvne
      have hitems : ConfigParser.items
          ⟨repos.map (fun r2 => (r2.id, sectionPairs r2))⟩ r.id = sectionPairs r := by
        unfold ConfigParser.items
        have hlk : alookup (repos.map (fun r2 => (r2.id, sectionPairs r2))) r.id =
            some (sectionPairs r) := by
          apply alookup_of_mem_nodup
          · exact hwfp.2
          · exact List.mem_map_of_mem _ hr
        rw [hlk]
      have hsec : alookup (ConfigParser.items
          ⟨repos.map (fun r2 => (r2.id, sectionPairs r2))⟩ r.id) k = some v := by
        rw [hitems]
        unfold sectionPairs
        have hlk := alookup_items_of_get r k v hk hv
        have h2 := alookup_foldl_entApply_of_some r.items [] k (some v)
          (items_keys_nodup r) hlk
        rw [entVal_of_truthy v hvne] at h2
        exact h2
      have hnd2 : ((ConfigParser.items
          ⟨repos.map (fun r2 => (r2.id, sectionPairs r2))⟩ r.id).map Prod.fst).Nodup := by
        rw [hitems]
        exact sectionPairs_keys_nodup r
      have hrec : alookup (parserToRepo
          ⟨repos.map (fun r2 => (r2.id, sectionPairs r2))⟩ r.id).data k = some (some v) := by
        show alookup ((ConfigParser.items
          ⟨repos.map (fun r2 => (r2.id, sectionPairs r2))⟩ r.id).foldl
            (fun d kv => aset d kv.1 (some kv.2)) (Repo.init r.id).data) k = _
        exact alookup_foldl_aset_of_some some _ _ k v hnd2 hsec
      show Repo.get (parserToRepo
        ⟨repos.map (fun r2 => (r2.id, sectionPairs r2))⟩ r.id) k = some v
      unfold Repo.get
      rw [hrec]

theorem c5_roundtrip_amended_witness :
    ∃ p, addAll [Repo.init "r1"] = .ok p ∧
      RepoFile.load (RepoFile.save false p) = .ok p ∧
      (allRepos p).length = [Repo.init "r1"].length ∧
      List.Forall₂ (fun r rec => rec.id = r.id ∧
        ∀ k v, k ∈ recognizedKeys → r.get k = some v → v ≠ "" → rec.get k = some v)
        [Repo.init "r1"] (allRepos p) :=
  c5_roundtrip_amended [Repo.init "r1"] (by decide)
    (by
      intro r hr
      simp only [List.mem_singleton] at hr
      subst hr
      exact ⟨by decide, by decide⟩)

/-! ### Claim C7 -/

lemma count_writeLines_header (p : ConfigParser) (hwf : wfParser p) :
    (writeLines p).count (("# Pulp Repositories" : String).data) = 0 := by
  rw [List.count_eq_zero]
  intro hmem
  rcases mem_writeLines p _ hmem with ⟨s, hs, he⟩ | ⟨s, hs, kv, hkv, he⟩ | he
  · have h1 : (("# Pulp Repositories" : String).data).head? = some '#' := by decide
    rw [he] at h1
    have h2 : (sectionLineChars s.1).head? = some '[' := rfl
    rw [h2] at h1
    simp at h1
  · have h1 : (("# Pulp Repositories" : String).data).head? = some '#' := by decide
    rw [he] at h1
    have h2 := (pairLine_facts kv ((hwf.1 s hs).2.1 kv hkv).1).2.1
    exact h2 h1
  · rw [he] at hmem
    have h1 : (("# Pulp Repositories" : String).data) ≠ [] := by decide
    exact h1 he

/-- C7: save prefixes the fixed header comment block exactly once, and only
when no file existed at the path before that save; a save to an existing
file adds no header, so the serialization itself never duplicates it.  The
count is measured on the distinctive header line. -/
theorem c7_header_once (p : ConfigParser) (hwf : wfParser p) :
    ((splitNl (RepoFile.save false p)).take 5 = headerLines ∧
      (splitNl (RepoFile.save false p)).count (("# Pulp Repositories" : String).data) = 1) ∧
    (splitNl (RepoFile.save true p)).count (("# Pulp Repositories" : String).data) = 0 := by
  have hnl : ∀ l ∈ headerLines ++ writeLines p, '\n' ∉ l := by
    intro l hl
    rcases List.mem_append.1 hl with h | h
    · exact headerLines_no_nl l h
    · exact writeLines_no_nl p hwf l h
  have hsplit1 : splitNl (RepoFile.save false p) = (headerLines ++ writeLines p) ++ [[]] := by
    rw [(save_eq_joinLines p).1, splitNl_joinLines _ hnl]
  have hsplit2 : splitNl (RepoFile.save true p) = writeLines p ++ [[]] := by
    rw [(save_eq_joinLines p).2, splitNl_joinLines _ (writeLines_no_nl p hwf)]
  have hcnt0 := count_writeLines_header p hwf
  have hcnte : ([[]] : List (List Char)).count (("# Pulp Repositories" : String).data) = 0 := by
    decide
  refine ⟨⟨?_, ?_⟩, ?_⟩
  · rw [hsplit1, List.append_assoc]
    have h5 : headerLines.length = 5 := by decide
    rw [← h5, List.take_left]
  · rw [hsplit1, List.count_append, List.count_append]
    have hh : headerLines.count (("# Pulp Repositories" : String).data) = 1 := by decide
    rw [hh, hcnt0, hcnte]
  · rw [hsplit2, List.count_append, hcnt0, hcnte]

theorem c7_header_once_witness :
    ((splitNl (RepoFile.save false ⟨[("r1", [("enabled", "1")])]⟩)).take 5 = headerLines ∧
      (splitNl (RepoFile.save false ⟨[("r1", [("enabled", "1")])]⟩)).count
        (("# Pulp Repositories" : String).data) = 1) ∧
    (splitNl (RepoFile.save true ⟨[("r1", [("enabled", "1")])]⟩)).count
      (("# Pulp Repositories" : String).data) = 0 :=
  c7_header_once ⟨[("r1", [("enabled", "1")])]⟩
    (by
      constructor
      · intro s hs
        simp only [List.mem_singleton] at hs
        subst hs
        exact ⟨by decide, by decide, by decide⟩
      · decide)
